import Mathlib

/-!
Verification of the `immer::vector` core (bit-partitioned radix-balanced
trie with a tail buffer).

The repository provides the facade `src/immer/vector.hpp` and the test file
`src/test/vector_transient/generic.ipp`.  The trie engine itself
(`immer/detail/rbts/rbtree.hpp`, referenced by the facade as `impl_t`) is
not part of the sources; all definitions that stand for it are modelled
from the specification (sections 3 and 4 of the spec) and carry a doc
comment saying so.

Conventions of the embedding:
* Machine integers (`std::size_t`) are modelled as `Nat`; all the sizes
  involved are far below 2^64 so overflow never matters.
* `B` and `BL` are the branching bit parameters (`BRANCH = 2^B` children
  per inner node, `LEAF = 2^BL` values per leaf).
* A node position inside the trie is addressed by radix arithmetic on the
  element index; the C++ expression `(i >> s) & (BRANCH - 1)` is written
  `i / 2^s % 2^B` and `i & (LEAF - 1)` is written `i % 2^BL`.
* A trie level of "shift `s`" (spec section 3) corresponds to height
  `s / B + 1` here, where height 0 is a leaf and the children of a node
  of height `h+1` have height `h`.
* Fallible user callbacks (for `update`) return `Except`.
-/

namespace Immer

/-- Modelled from the spec: the node type of the radix-balanced trie
(spec section 3, "Node. Two variants"), standing for the node type of the
missing `immer/detail/rbts/node.hpp`.  An inner node carries an array of
children, a leaf an array of values.  Each node also carries the *edit
token* slot: `none` is the "no owner" sentinel of persistent-owned nodes,
`some e` is the stamp of the transient whose token is `e`. -/
inductive Node (α : Type) where
  | inner (edit : Option Nat) (children : List (Node α))
  | leaf  (edit : Option Nat) (values : List α)
deriving Repr

namespace Node

variable {α : Type}

mutual

/-- The list of elements stored in a subtree, in index order (leaves
visited depth-first, left to right: spec section 4.1, chunk iteration). -/
def treeList : Node α → List α
  | .leaf _ vs => vs
  | .inner _ cs => treeListL cs

/-- Concatenation of the element lists of a list of sibling nodes. -/
def treeListL : List (Node α) → List α
  | [] => []
  | c :: cs => treeList c ++ treeListL cs

end

@[simp] theorem treeList_leaf (e : Option Nat) (vs : List α) :
    treeList (.leaf e vs) = vs := by
  rw [treeList]

@[simp] theorem treeList_inner (e : Option Nat) (cs : List (Node α)) :
    treeList (.inner e cs) = treeListL cs := by
  rw [treeList]

@[simp] theorem treeListL_nil : treeListL ([] : List (Node α)) = [] := by
  rw [treeListL]

@[simp] theorem treeListL_cons (c : Node α) (cs : List (Node α)) :
    treeListL (c :: cs) = treeList c ++ treeListL cs := by
  rw [treeListL]

end Node

/-- Apply `f` to the element at position `n`, leaving the list unchanged
when `n` is out of range (helper used to model in-path node replacement). -/
def listModify {α : Type} (f : α → α) : Nat → List α → List α
  | _, [] => []
  | 0, a :: as => f a :: as
  | n + 1, a :: as => a :: listModify f n as

@[simp] theorem length_listModify {α : Type} (f : α → α) :
    ∀ (n : Nat) (l : List α), (listModify f n l).length = l.length
  | _, [] => by rw [listModify]
  | 0, _ :: _ => rfl
  | n + 1, _ :: as => by simp [listModify, length_listModify f n as]

theorem listModify_getElem? {α : Type} (f : α → α) :
    ∀ (n : Nat) (l : List α) (k : Nat),
      (listModify f n l)[k]? = if k = n then Option.map f l[k]? else l[k]?
  | _, [], k => by simp [listModify]
  | 0, a :: as, 0 => by simp [listModify]
  | 0, a :: as, k + 1 => by simp [listModify]
  | n + 1, a :: as, 0 => by simp [listModify]
  | n + 1, a :: as, k + 1 => by
      simp only [listModify, List.getElem?_cons_succ]
      rw [listModify_getElem? f n as k]
      by_cases h : k = n <;> simp [h]

@[simp] theorem listModify_getElem?_self {α : Type} (f : α → α)
    (n : Nat) (l : List α) : (listModify f n l)[n]? = Option.map f l[n]? := by
  simp [listModify_getElem?]

theorem listModify_getElem?_ne {α : Type} (f : α → α)
    (n : Nat) (l : List α) (k : Nat) (h : k ≠ n) :
    (listModify f n l)[k]? = l[k]? := by
  simp [listModify_getElem?, h]

theorem listModify_of_le {α : Type} (f : α → α) :
    ∀ (n : Nat) (l : List α), l.length ≤ n → listModify f n l = l
  | _, [], _ => by rw [listModify]
  | 0, a :: as, h => by simp at h
  | n + 1, a :: as, h => by
      simp only [List.length_cons, Nat.add_le_add_iff_right] at h
      simp [listModify, listModify_of_le f n as h]

section Params

variable {α : Type} (B BL : Nat)

open Node

/-- Modelled from the spec: radix read into the trunk (spec section 4.1,
standing for the missing `rbtree::get` / `descend`).  At an inner node of
height `h+1` (trunk level of shift `h·B`), the child slot is given by the
`B` bits of the index just above the bits that address inside the child,
i.e. `(i >> (h·B + BL)) & (BRANCH−1)`; at a leaf the value slot is
`i & (LEAF−1)`.  Out-of-range accesses (undefined behaviour in the code)
yield `none`. -/
def treeGet : Nat → Node α → Nat → Option α
  | 0, .leaf _ vs, i => vs[i % 2 ^ BL]?
  | 0, .inner _ _, _ => none
  | _ + 1, .leaf _ _, _ => none
  | h + 1, .inner _ cs, i =>
      match cs[i / 2 ^ (h * B + BL) % 2 ^ B]? with
      | some c => treeGet h c i
      | none => none

/-- Modelled from the spec: the structural invariant of a trunk subtree of
height `h` (spec section 3, invariants 1–3): every leaf is full (exactly
`2^BL` values), an inner node has at most `2^B` children, every child but
the last is itself completely full, and the last child is not empty. -/
def wfN : Nat → Node α → Bool
  | 0, .leaf _ vs => vs.length == 2 ^ BL
  | 0, .inner _ _ => false
  | _ + 1, .leaf _ _ => false
  | h + 1, .inner _ cs =>
      decide (cs.length ≤ 2 ^ B)
      && cs.all (fun c => wfN h c)
      && cs.dropLast.all (fun c => (treeList c).length == 2 ^ (h * B + BL))
      && (match cs.getLast? with
          | some c => decide (0 < (treeList c).length)
          | none => true)

end Params

section Lemmas

variable {α : Type} (B BL : Nat)

open Node

theorem wfN_inner_parts {e : Option Nat} {cs : List (Node α)} {h : Nat}
    (hw : wfN B BL (h + 1) (.inner e cs) = true) :
    cs.length ≤ 2 ^ B ∧ (∀ c ∈ cs, wfN B BL h c = true) ∧
    (∀ k, k + 1 < cs.length → ∀ c, cs[k]? = some c →
      (treeList c).length = 2 ^ (h * B + BL)) ∧
    (∀ c, cs.getLast? = some c → 0 < (treeList c).length) := by
  simp only [wfN, Bool.and_eq_true, decide_eq_true_eq, List.all_eq_true,
    beq_iff_eq] at hw
  obtain ⟨⟨⟨h1, h2⟩, h3⟩, h4⟩ := hw
  refine ⟨h1, fun c hc => h2 c hc, ?_, ?_⟩
  · intro k hk c hc
    refine h3 c (List.mem_iff_getElem?.2 ⟨k, ?_⟩)
    rw [List.getElem?_dropLast, if_pos (by omega)]
    exact hc
  · intro c hc
    rw [hc] at h4
    simpa using h4

theorem wfN_inner_intro {e : Option Nat} {cs : List (Node α)} {h : Nat}
    (h1 : cs.length ≤ 2 ^ B) (h2 : ∀ c ∈ cs, wfN B BL h c = true)
    (h3 : ∀ k, k + 1 < cs.length → ∀ c, cs[k]? = some c →
      (treeList c).length = 2 ^ (h * B + BL))
    (h4 : ∀ c, cs.getLast? = some c → 0 < (treeList c).length) :
    wfN B BL (h + 1) (.inner e cs) = true := by
  simp only [wfN, Bool.and_eq_true, decide_eq_true_eq, List.all_eq_true,
    beq_iff_eq]
  refine ⟨⟨⟨h1, fun c hc => h2 c hc⟩, ?_⟩, ?_⟩
  · intro c hc
    obtain ⟨k, hk⟩ := List.mem_iff_getElem?.1 hc
    rw [List.getElem?_dropLast] at hk
    by_cases hklt : k < cs.length - 1
    · rw [if_pos hklt] at hk
      exact h3 k (by omega) c hk
    · rw [if_neg hklt] at hk
      exact absurd hk (by simp)
  · match hlast : cs.getLast? with
    | some c => simpa using h4 c hlast
    | none => simp

theorem treeListL_length_le (cap : Nat) :
    ∀ (cs : List (Node α)), (∀ c ∈ cs, (treeList c).length ≤ cap) →
      (treeListL cs).length ≤ cs.length * cap
  | [], _ => by simp
  | c :: cs, h => by
    have hc := h c (List.mem_cons_self c cs)
    have hcs := treeListL_length_le cap cs
      (fun c' hc' => h c' (List.mem_cons_of_mem c hc'))
    simp only [treeListL_cons, List.length_append, List.length_cons,
      Nat.succ_mul]
    omega

theorem treeListL_dvd (d : Nat) :
    ∀ (cs : List (Node α)), (∀ c ∈ cs, d ∣ (treeList c).length) →
      d ∣ (treeListL cs).length
  | [], _ => by simp
  | c :: cs, h => by
    have hc := h c (List.mem_cons_self c cs)
    have hcs := treeListL_dvd d cs
      (fun c' hc' => h c' (List.mem_cons_of_mem c hc'))
    simp only [treeListL_cons, List.length_append]
    exact Nat.dvd_add hc hcs

theorem capacity_succ (h : Nat) :
    2 ^ ((h + 1) * B + BL) = 2 ^ B * 2 ^ (h * B + BL) := by
  rw [show (h + 1) * B + BL = B + (h * B + BL) by ring, pow_add]

theorem treeList_length_le :
    ∀ (h : Nat) (t : Node α), wfN B BL h t = true →
      (treeList t).length ≤ 2 ^ (h * B + BL)
  | 0, .leaf e vs, hw => by
    simp only [wfN, beq_iff_eq] at hw
    simp [hw]
  | 0, .inner e cs, hw => by simp [wfN] at hw
  | h + 1, .leaf e vs, hw => by simp [wfN] at hw
  | h + 1, .inner e cs, hw => by
    obtain ⟨h1, h2, _, _⟩ := wfN_inner_parts B BL hw
    have hle := treeListL_length_le (2 ^ (h * B + BL)) cs
      (fun c hc => treeList_length_le h c (h2 c hc))
    rw [treeList_inner, capacity_succ B BL h]
    calc (treeListL cs).length ≤ cs.length * 2 ^ (h * B + BL) := hle
      _ ≤ 2 ^ B * 2 ^ (h * B + BL) := Nat.mul_le_mul_right _ h1

theorem treeList_dvd_len :
    ∀ (h : Nat) (t : Node α), wfN B BL h t = true →
      2 ^ BL ∣ (treeList t).length
  | 0, .leaf e vs, hw => by
    simp only [wfN, beq_iff_eq] at hw
    simp [hw]
  | 0, .inner e cs, hw => by simp [wfN] at hw
  | h + 1, .leaf e vs, hw => by simp [wfN] at hw
  | h + 1, .inner e cs, hw => by
    obtain ⟨_, h2, _, _⟩ := wfN_inner_parts B BL hw
    rw [treeList_inner]
    exact treeListL_dvd (2 ^ BL) cs
      (fun c hc => treeList_dvd_len h c (h2 c hc))

/-- Chunk indexing: reading position `r` of the concatenated children,
where every child but the last holds exactly `c` elements, lands in chunk
`r / c` at offset `r % c`. -/
theorem treeListL_chunk_get? (c : Nat) (hc : 0 < c) :
    ∀ (cs : List (Node α)) (r : Nat),
      (∀ k, k + 1 < cs.length → ∀ t, cs[k]? = some t →
        (treeList t).length = c) →
      (∀ t ∈ cs, (treeList t).length ≤ c) →
      r < (treeListL cs).length →
      ∃ t, cs[r / c]? = some t ∧ r % c < (treeList t).length ∧
        (treeListL cs)[r]? = (treeList t)[r % c]?
  | [], r, _, _, hr => by simp at hr
  | t0 :: cs, r, hfull, hle, hr => by
    by_cases h0 : r < (treeList t0).length
    · have hrc : r < c := lt_of_lt_of_le h0 (hle t0 (List.mem_cons_self t0 cs))
      refine ⟨t0, ?_, ?_, ?_⟩
      · rw [Nat.div_eq_of_lt hrc]; simp
      · rw [Nat.mod_eq_of_lt hrc]; exact h0
      · rw [Nat.mod_eq_of_lt hrc, treeListL_cons, List.getElem?_append_left h0]
    · cases cs with
      | nil =>
        exfalso
        rw [treeListL_cons, treeListL_nil, List.append_nil] at hr
        omega
      | cons t1 cs' =>
        have h0full : (treeList t0).length = c :=
          hfull 0 (by simp) t0 rfl
        have hrg : c ≤ r := by omega
        obtain ⟨r', rfl⟩ : ∃ r', r = r' + c := ⟨r - c, by omega⟩
        have hr' : r' < (treeListL (t1 :: cs')).length := by
          rw [treeListL_cons, List.length_append, h0full] at hr
          omega
        obtain ⟨t, ht, hlt, hget⟩ :=
          treeListL_chunk_get? c hc (t1 :: cs') r'
            (fun k hk t hkt =>
              hfull (k + 1) (by simp only [List.length_cons] at hk ⊢; omega) t
                (by simpa using hkt))
            (fun t ht => hle t (List.mem_cons_of_mem t0 ht))
            hr'
        refine ⟨t, ?_, ?_, ?_⟩
        · rw [Nat.add_div_right _ hc]
          simpa using ht
        · rwa [Nat.add_mod_right]
        · rw [Nat.add_mod_right, treeListL_cons,
            List.getElem?_append_right (by omega),
            h0full, Nat.add_sub_cancel]
          exact hget

/-- Radix reading is list indexing: on a well-formed trunk subtree of
height `h`, `treeGet` at index `q·2^(h·B+BL) + r` (arbitrary upper bits
`q`, local index `r`) returns element `r` of the flattened subtree. -/
theorem treeGet_spec :
    ∀ (h : Nat) (t : Node α), wfN B BL h t = true →
      ∀ (q r : Nat), r < (treeList t).length →
        treeGet B BL h t (q * 2 ^ (h * B + BL) + r) = (treeList t)[r]?
  | 0, .leaf e vs, hw, q, r, hr => by
    simp only [wfN, beq_iff_eq] at hw
    rw [treeGet, treeList_leaf]
    rw [show 0 * B + BL = BL by ring, Nat.mul_comm, Nat.mul_add_mod,
      Nat.mod_eq_of_lt (by simpa [hw] using hr)]
  | 0, .inner e cs, hw, _, _, _ => by simp [wfN] at hw
  | h + 1, .leaf e vs, hw, _, _, _ => by simp [wfN] at hw
  | h + 1, .inner e cs, hw, q, r, hr => by
    obtain ⟨h1, h2, h3, h4⟩ := wfN_inner_parts B BL hw
    have hcpos : 0 < 2 ^ (h * B + BL) := Nat.pos_pow_of_pos _ (by omega)
    rw [treeList_inner] at hr
    obtain ⟨t, ht, hlt, hget⟩ :=
      treeListL_chunk_get? (2 ^ (h * B + BL)) hcpos cs r h3
        (fun t htm => treeList_length_le B BL h t (h2 t htm)) hr
    have hslot : (q * 2 ^ ((h + 1) * B + BL) + r) / 2 ^ (h * B + BL) % 2 ^ B
        = r / 2 ^ (h * B + BL) := by
      rw [capacity_succ B BL h,
        show q * (2 ^ B * 2 ^ (h * B + BL)) + r
          = 2 ^ (h * B + BL) * (q * 2 ^ B) + r by ring,
        Nat.mul_add_div hcpos, Nat.mul_comm q (2 ^ B), Nat.mul_add_mod]
      have hrdiv : r / 2 ^ (h * B + BL) < 2 ^ B := by
        rw [Nat.div_lt_iff_lt_mul hcpos]
        calc r < (treeListL cs).length := hr
          _ ≤ cs.length * 2 ^ (h * B + BL) :=
            treeListL_length_le _ cs
              (fun c hcm => treeList_length_le B BL h c (h2 c hcm))
          _ ≤ 2 ^ B * 2 ^ (h * B + BL) := Nat.mul_le_mul_right _ h1
      exact Nat.mod_eq_of_lt hrdiv
    have harg : q * 2 ^ ((h + 1) * B + BL) + r
        = (q * 2 ^ B + r / 2 ^ (h * B + BL)) * 2 ^ (h * B + BL)
          + r % 2 ^ (h * B + BL) := by
      have hdm := Nat.div_add_mod r (2 ^ (h * B + BL))
      calc q * 2 ^ ((h + 1) * B + BL) + r
          = q * (2 ^ B * 2 ^ (h * B + BL))
            + (2 ^ (h * B + BL) * (r / 2 ^ (h * B + BL))
              + r % 2 ^ (h * B + BL)) := by
            rw [capacity_succ B BL h, hdm]
        _ = (q * 2 ^ B + r / 2 ^ (h * B + BL)) * 2 ^ (h * B + BL)
            + r % 2 ^ (h * B + BL) := by ring
    rw [treeGet, hslot, ht]
    dsimp only
    rw [harg, treeGet_spec h t (h2 t (List.mem_iff_getElem?.2 ⟨_, ht⟩)) _ _ hlt]
    rw [treeList_inner, hget]

end Lemmas

section UpdateDef

variable {α : Type} (B BL : Nat)

open Node

/-- Modelled from the spec: positional write into the trunk
(spec section 4.3, standing for the missing `rbtree::do_update` /
`rbtree::assoc`): walk the radix path, cloning each inner node along the
way and replacing the child pointer with the cloned descendant; at the
leaf, clone it and overwrite the target slot with `fn(old)`.  Every node
created on the write path carries the edit stamp `ed` (`none` on the
persistent path, `some e` when performed through a transient with token
`e`); untouched siblings are shared unchanged. -/
def treeUpdate (ed : Option Nat) (f : α → α) : Nat → Node α → Nat → Node α
  | 0, .leaf _ vs, i => .leaf ed (listModify f (i % 2 ^ BL) vs)
  | 0, .inner e cs, _ => .inner e cs
  | _ + 1, .leaf e vs, _ => .leaf e vs
  | h + 1, .inner _ cs, i =>
      .inner ed (listModify (fun c => treeUpdate ed f h c i)
        (i / 2 ^ (h * B + BL) % 2 ^ B) cs)

end UpdateDef

section ListHelpers

variable {γ : Type}

theorem listModify_append_left (f : γ → γ) :
    ∀ (l₁ l₂ : List γ) (n : Nat), n < l₁.length →
      listModify f n (l₁ ++ l₂) = listModify f n l₁ ++ l₂
  | [], _, n, hn => by simp at hn
  | a :: l₁, l₂, 0, _ => by simp [listModify]
  | a :: l₁, l₂, n + 1, hn => by
    have ih := listModify_append_left f l₁ l₂ n (by simpa using hn)
    simp only [List.cons_append, listModify, List.append_eq] at ih ⊢
    rw [ih]

theorem listModify_append_right (f : γ → γ) :
    ∀ (l₁ l₂ : List γ) (n : Nat),
      listModify f (l₁.length + n) (l₁ ++ l₂) = l₁ ++ listModify f n l₂
  | [], l₂, n => by simp
  | a :: l₁, l₂, n => by
    simp only [List.cons_append, List.length_cons]
    rw [show l₁.length + 1 + n = (l₁.length + n) + 1 by omega]
    simp only [listModify]
    rw [listModify_append_right f l₁ l₂ n]

theorem mem_listModify (g : γ → γ) :
    ∀ (j : Nat) (l : List γ) (x : γ), x ∈ listModify g j l →
      x ∈ l ∨ ∃ y, l[j]? = some y ∧ x = g y
  | _, [], x, hx => by rw [listModify] at hx; exact Or.inl hx
  | 0, a :: l, x, hx => by
    rw [listModify] at hx
    rcases List.mem_cons.1 hx with h | h
    · exact Or.inr ⟨a, by simp, h⟩
    · exact Or.inl (List.mem_cons_of_mem a h)
  | j + 1, a :: l, x, hx => by
    rw [listModify] at hx
    rcases List.mem_cons.1 hx with h | h
    · exact Or.inl (h ▸ List.mem_cons_self a l)
    · rcases mem_listModify g j l x h with h' | ⟨y, hy, hxy⟩
      · exact Or.inl (List.mem_cons_of_mem a h')
      · exact Or.inr ⟨y, by simpa using hy, hxy⟩

end ListHelpers

section DecompLemmas

variable {α : Type}

open Node

theorem treeListL_take_length (c : Nat) :
    ∀ (cs : List (Node α)) (j : Nat), j ≤ cs.length →
      (∀ k, k < j → ∀ t, cs[k]? = some t → (treeList t).length = c) →
      (treeListL (cs.take j)).length = j * c
  | _, 0, _, _ => by simp
  | [], j + 1, hj, _ => by simp at hj
  | t0 :: cs, j + 1, hj, hfull => by
    have h0 : (treeList t0).length = c := hfull 0 (by omega) t0 (by simp)
    have ih := treeListL_take_length c cs j (by simpa using hj)
      (fun k hk t ht => hfull (k + 1) (by omega) t (by simpa using ht))
    simp only [List.take_succ_cons, treeListL_cons, List.length_append, h0, ih]
    ring

theorem treeListL_decomp :
    ∀ (cs : List (Node α)) (j : Nat), j < cs.length →
      ∀ t, cs[j]? = some t →
      treeListL cs = treeListL (cs.take j)
        ++ (treeList t ++ treeListL (cs.drop (j + 1)))
  | [], j, hj, _, _ => by simp at hj
  | t0 :: cs, 0, _, t, ht => by
    simp only [List.getElem?_cons_zero, Option.some.injEq] at ht
    simp [ht]
  | t0 :: cs, j + 1, hj, t, ht => by
    have ih := treeListL_decomp cs j (by simpa using hj) t (by simpa using ht)
    simp only [List.take_succ_cons, List.drop_succ_cons, treeListL_cons, ih]
    simp

theorem treeListL_listModify_decomp (g : Node α → Node α) :
    ∀ (cs : List (Node α)) (j : Nat), j < cs.length →
      ∀ t, cs[j]? = some t →
      treeListL (listModify g j cs) = treeListL (cs.take j)
        ++ (treeList (g t) ++ treeListL (cs.drop (j + 1)))
  | [], j, hj, _, _ => by simp at hj
  | t0 :: cs, 0, _, t, ht => by
    simp only [List.getElem?_cons_zero, Option.some.injEq] at ht
    simp [listModify, ht]
  | t0 :: cs, j + 1, hj, t, ht => by
    have ih := treeListL_listModify_decomp g cs j (by simpa using hj) t
      (by simpa using ht)
    simp only [listModify, List.take_succ_cons, List.drop_succ_cons,
      treeListL_cons, ih]
    simp

end DecompLemmas

section IndexLemmas

variable (B BL : Nat)

theorem slot_eq (h q r : Nat) (hr : r < 2 ^ ((h + 1) * B + BL)) :
    (q * 2 ^ ((h + 1) * B + BL) + r) / 2 ^ (h * B + BL) % 2 ^ B
      = r / 2 ^ (h * B + BL) := by
  have hcpos : 0 < 2 ^ (h * B + BL) := Nat.pos_pow_of_pos _ (by omega)
  rw [capacity_succ B BL h,
    show q * (2 ^ B * 2 ^ (h * B + BL)) + r
      = 2 ^ (h * B + BL) * (q * 2 ^ B) + r by ring,
    Nat.mul_add_div hcpos, Nat.mul_comm q (2 ^ B), Nat.mul_add_mod]
  refine Nat.mod_eq_of_lt ?_
  rw [Nat.div_lt_iff_lt_mul hcpos]
  rw [capacity_succ B BL h] at hr
  omega

theorem index_decomp (h q r : Nat) :
    q * 2 ^ ((h + 1) * B + BL) + r
      = (q * 2 ^ B + r / 2 ^ (h * B + BL)) * 2 ^ (h * B + BL)
        + r % 2 ^ (h * B + BL) := by
  have hdm := Nat.div_add_mod r (2 ^ (h * B + BL))
  calc q * 2 ^ ((h + 1) * B + BL) + r
      = q * (2 ^ B * 2 ^ (h * B + BL))
        + (2 ^ (h * B + BL) * (r / 2 ^ (h * B + BL))
          + r % 2 ^ (h * B + BL)) := by rw [capacity_succ B BL h, hdm]
    _ = (q * 2 ^ B + r / 2 ^ (h * B + BL)) * 2 ^ (h * B + BL)
        + r % 2 ^ (h * B + BL) := by ring

end IndexLemmas

section UpdateSpec

variable {α : Type} (B BL : Nat)

open Node

/-- Positional write is list modification: on a well-formed trunk subtree,
`treeUpdate` at index `q·2^(h·B+BL) + r` rewrites element `r` of the
flattened subtree with `f` and preserves the structural invariant,
whatever edit stamp is written on the path. -/
theorem treeUpdate_spec :
    ∀ (h : Nat) (t : Node α), wfN B BL h t = true →
      ∀ (q r : Nat), r < (treeList t).length →
        ∀ (ed : Option Nat) (f : α → α),
        treeList (treeUpdate B BL ed f h t (q * 2 ^ (h * B + BL) + r))
            = listModify f r (treeList t)
          ∧ wfN B BL h (treeUpdate B BL ed f h t (q * 2 ^ (h * B + BL) + r))
              = true
  | 0, .leaf e vs, hw, q, r, hr, ed, f => by
    simp only [wfN, beq_iff_eq] at hw
    have hmod : (q * 2 ^ BL + r) % 2 ^ BL = r := by
      rw [Nat.mul_comm, Nat.mul_add_mod]
      exact Nat.mod_eq_of_lt (by simpa [hw] using hr)
    constructor
    · simp [treeUpdate, hmod]
    · simp [treeUpdate, wfN, hmod, hw]
  | 0, .inner e cs, hw, q, r, hr, ed, f => by simp [wfN] at hw
  | h + 1, .leaf e vs, hw, q, r, hr, ed, f => by simp [wfN] at hw
  | h + 1, .inner e cs, hw, q, r, hr, ed, f => by
    obtain ⟨h1, h2, h3, h4⟩ := wfN_inner_parts B BL hw
    have hcpos : 0 < 2 ^ (h * B + BL) := Nat.pos_pow_of_pos _ (by omega)
    rw [treeList_inner] at hr
    obtain ⟨t, ht, hlt, _⟩ := treeListL_chunk_get? (2 ^ (h * B + BL)) hcpos
      cs r h3 (fun t htm => treeList_length_le B BL h t (h2 t htm)) hr
    have hcap : r < 2 ^ ((h + 1) * B + BL) :=
      lt_of_lt_of_le hr
        (by simpa using treeList_length_le B BL (h + 1) (.inner e cs) hw)
    have hslot := slot_eq B BL h q r hcap
    obtain ⟨hjlt, -⟩ := List.getElem?_eq_some.1 ht
    have hwt : wfN B BL h t = true :=
      h2 t (List.mem_iff_getElem?.2 ⟨_, ht⟩)
    have ih := treeUpdate_spec h t hwt (q * 2 ^ B + r / 2 ^ (h * B + BL))
      (r % 2 ^ (h * B + BL)) hlt ed f
    rw [← index_decomp B BL h q r] at ih
    have hupd : treeUpdate B BL ed f (h + 1) (.inner e cs)
          (q * 2 ^ ((h + 1) * B + BL) + r)
        = .inner ed (listModify
            (fun c => treeUpdate B BL ed f h c
              (q * 2 ^ ((h + 1) * B + BL) + r))
            (r / 2 ^ (h * B + BL)) cs) := by
      simp only [treeUpdate, hslot]
    have hdecomp := treeListL_decomp cs _ hjlt t ht
    have hmodif := treeListL_listModify_decomp
      (fun c => treeUpdate B BL ed f h c (q * 2 ^ ((h + 1) * B + BL) + r))
      cs _ hjlt t ht
    rw [show (fun c => treeUpdate B BL ed f h c
        (q * 2 ^ ((h + 1) * B + BL) + r)) t
      = treeUpdate B BL ed f h t (q * 2 ^ ((h + 1) * B + BL) + r)
      from rfl] at hmodif
    have htake := treeListL_take_length (2 ^ (h * B + BL)) cs
      (r / 2 ^ (h * B + BL)) (le_of_lt hjlt)
      (fun k hk t' ht' => h3 k (by omega) t' ht')
    have hr2 : r = (treeListL (cs.take (r / 2 ^ (h * B + BL)))).length
        + r % 2 ^ (h * B + BL) := by
      rw [htake, Nat.mul_comm]
      exact (Nat.div_add_mod r _).symm
    have hlen : (treeList (treeUpdate B BL ed f h t
        (q * 2 ^ ((h + 1) * B + BL) + r))).length
        = (treeList t).length := by
      rw [ih.1, length_listModify]
    constructor
    · rw [hupd, treeList_inner, treeList_inner, hmodif, ih.1]
      calc treeListL (cs.take (r / 2 ^ (h * B + BL)))
            ++ (listModify f (r % 2 ^ (h * B + BL)) (treeList t)
              ++ treeListL (cs.drop (r / 2 ^ (h * B + BL) + 1)))
          = listModify f
              ((treeListL (cs.take (r / 2 ^ (h * B + BL)))).length
                + r % 2 ^ (h * B + BL))
              (treeListL (cs.take (r / 2 ^ (h * B + BL)))
                ++ (treeList t
                  ++ treeListL (cs.drop (r / 2 ^ (h * B + BL) + 1)))) := by
            rw [listModify_append_right, listModify_append_left f _ _ _ hlt]
        _ = listModify f r (treeListL cs) := by rw [← hdecomp, ← hr2]
    · rw [hupd]
      refine wfN_inner_intro B BL ?_ ?_ ?_ ?_
      · simpa [length_listModify] using h1
      · intro c' hc'
        rcases mem_listModify _ _ _ c' hc' with hmem | ⟨y, hy, rfl⟩
        · exact h2 c' hmem
        · obtain rfl : y = t := by rw [ht] at hy; simpa using hy.symm
          exact ih.2
      · intro k hk c'' hc''
        rw [length_listModify] at hk
        rw [listModify_getElem?] at hc''
        by_cases hkj : k = r / 2 ^ (h * B + BL)
        · rw [if_pos hkj, hkj, ht] at hc''
          have hc3 : c'' = treeUpdate B BL ed f h t
              (q * 2 ^ ((h + 1) * B + BL) + r) := by
            simpa [eq_comm] using hc''
          subst hc3
          rw [hlen]
          exact h3 k hk t (hkj ▸ ht)
        · rw [if_neg hkj] at hc''
          exact h3 k hk c'' hc''
      · intro c'' hc''
        rw [List.getLast?_eq_getElem?, length_listModify,
          listModify_getElem?] at hc''
        by_cases hkj : cs.length - 1 = r / 2 ^ (h * B + BL)
        · rw [if_pos hkj, hkj, ht] at hc''
          have hc3 : c'' = treeUpdate B BL ed f h t
              (q * 2 ^ ((h + 1) * B + BL) + r) := by
            simpa [eq_comm] using hc''
          subst hc3
          rw [hlen]
          exact h4 t (by rw [List.getLast?_eq_getElem?, hkj]; exact ht)
        · rw [if_neg hkj] at hc''
          exact h4 c'' (by rw [List.getLast?_eq_getElem?]; exact hc'')

end UpdateSpec

section PushDef

variable {α : Type} (B BL : Nat)

open Node

/-- Modelled from the spec: the freshly built spine of single-slot inner
nodes reaching down to a leaf (spec section 4.2 Case B, "a freshly built
spine down to the tail-leaf").  New nodes carry the edit stamp `ed`. -/
def newPath (ed : Option Nat) : Nat → Node α → Node α
  | 0, lf => lf
  | h + 1, lf => .inner ed [newPath ed h lf]

/-- Modelled from the spec: incorporating a full tail leaf into the trunk
at position `m = tail_offset` (spec section 4.2 Case B, standing for the
missing `rbtree::push_tail`): copy the spine along the radix path of `m`,
descending into the child slot `(m >> (h·B + BL)) & (BRANCH−1)` when it
already exists and appending a fresh spine otherwise; untouched siblings
stay shared.  Nodes created on the path carry the edit stamp `ed`. -/
def pushLeaf (ed : Option Nat) : Nat → Node α → Nat → Node α → Node α
  | 0, _t, _m, lf => lf
  | h + 1, .inner _ cs, m, lf =>
      if m / 2 ^ (h * B + BL) % 2 ^ B < cs.length
      then .inner ed (listModify (fun c => pushLeaf ed h c m lf)
        (m / 2 ^ (h * B + BL) % 2 ^ B) cs)
      else .inner ed (cs ++ [newPath ed h lf])
  | _ + 1, .leaf e vs, _, _ => .leaf e vs

end PushDef

section PushLemmas

variable {α : Type} (B BL : Nat)

open Node

theorem treeListL_append :
    ∀ (l₁ l₂ : List (Node α)),
      treeListL (l₁ ++ l₂) = treeListL l₁ ++ treeListL l₂
  | [], l₂ => by simp
  | c :: l₁, l₂ => by
    simp only [List.cons_append, treeListL_cons, treeListL_append l₁ l₂,
      List.append_assoc]

theorem newPath_treeList (ed : Option Nat) :
    ∀ (h : Nat) (lf : Node α), treeList (newPath ed h lf) = treeList lf
  | 0, lf => rfl
  | h + 1, lf => by
    simp only [newPath, treeList_inner, treeListL_cons, treeListL_nil,
      List.append_nil]
    exact newPath_treeList ed h lf

theorem newPath_wf (ed : Option Nat) :
    ∀ (h : Nat) (lf : Node α), wfN B BL 0 lf = true →
      wfN B BL h (newPath ed h lf) = true
  | 0, lf, hlf => hlf
  | h + 1, lf, hlf => by
    rw [newPath]
    refine wfN_inner_intro B BL ?_ ?_ ?_ ?_
    · simpa using Nat.one_le_two_pow
    · intro c hc
      rw [List.mem_singleton] at hc
      subst hc
      exact newPath_wf ed h lf hlf
    · intro k hk c hc
      simp at hk
    · intro c hc
      simp only [List.getLast?_singleton, Option.some.injEq] at hc
      subst hc
      rw [newPath_treeList]
      cases lf with
      | leaf e vs =>
        simp only [wfN, beq_iff_eq] at hlf
        simp [hlf]
      | inner e cs => simp [wfN] at hlf

/-- Analysis of the last child of a well-formed inner node: the total
element count splits into full children plus a final nonempty chunk. -/
theorem wfN_last_analysis {e : Option Nat} {cs : List (Node α)} {h : Nat}
    (hw : wfN B BL (h + 1) (.inner e cs) = true) (hne : cs ≠ []) :
    ∃ tl, cs[cs.length - 1]? = some tl ∧ wfN B BL h tl = true ∧
      0 < (treeList tl).length ∧
      (treeList tl).length ≤ 2 ^ (h * B + BL) ∧
      (treeListL cs).length
        = (cs.length - 1) * 2 ^ (h * B + BL) + (treeList tl).length := by
  obtain ⟨h1, h2, h3, h4⟩ := wfN_inner_parts B BL hw
  have hpos : 0 < cs.length := List.length_pos.2 hne
  have hlt : cs.length - 1 < cs.length := by omega
  have htl : cs[cs.length - 1]? = some (cs.get ⟨cs.length - 1, hlt⟩) := by
    rw [List.getElem?_eq_getElem hlt]
    rfl
  set tl := cs.get ⟨cs.length - 1, hlt⟩ with htldef
  have hmem : tl ∈ cs := List.get_mem cs _ _
  have hwtl : wfN B BL h tl = true := h2 tl hmem
  have hnonempty : 0 < (treeList tl).length :=
    h4 tl (by rw [List.getLast?_eq_getElem?]; exact htl)
  refine ⟨tl, htl, hwtl, hnonempty, treeList_length_le B BL h tl hwtl, ?_⟩
  have hdecomp := treeListL_decomp cs (cs.length - 1) hlt tl htl
  have htake := treeListL_take_length (2 ^ (h * B + BL)) cs (cs.length - 1)
    (by omega) (fun k hk t' ht' => h3 k (by omega) t' ht')
  rw [hdecomp, List.length_append, List.length_append, htake,
    show cs.drop (cs.length - 1 + 1) = cs.drop cs.length by congr 1; omega,
    List.drop_length]
  simp

theorem dvd_add_le {d a b : Nat} (h : a < b) (hda : d ∣ a) (hdb : d ∣ b) :
    a + d ≤ b := by
  have h1 : d ∣ b - a := Nat.dvd_sub' hdb hda
  have h2 : 0 < b - a := by omega
  have := Nat.le_of_dvd h2 h1
  omega

end PushLemmas

section PushSpec

variable {α : Type} (B BL : Nat)

open Node

theorem wfN_zero_length {lf : Node α} (hlf : wfN B BL 0 lf = true) :
    (treeList lf).length = 2 ^ BL := by
  cases lf with
  | leaf e vs => simpa [wfN] using hlf
  | inner e cs => simp [wfN] at hlf

/-- Incorporating a full leaf at the end of a well-formed trunk appends
its values to the flattened trunk and preserves the structural
invariant. -/
theorem pushLeaf_spec :
    ∀ (h : Nat) (t : Node α), wfN B BL h t = true →
      ∀ (q m : Nat), (treeList t).length = m → 2 ^ BL ∣ m →
        m + 2 ^ BL ≤ 2 ^ (h * B + BL) →
        ∀ (ed : Option Nat) (lf : Node α), wfN B BL 0 lf = true →
        treeList (pushLeaf B BL ed h t (q * 2 ^ (h * B + BL) + m) lf)
            = treeList t ++ treeList lf
          ∧ wfN B BL h (pushLeaf B BL ed h t (q * 2 ^ (h * B + BL) + m) lf)
              = true
  | 0, .leaf e vs, hw, q, m, hm, hdvd, hcap, ed, lf, hlf => by
    exfalso
    simp only [wfN, beq_iff_eq] at hw
    rw [treeList_leaf] at hm
    have hLpos : (0:Nat) < 2 ^ BL := Nat.pos_pow_of_pos _ (by omega)
    rw [show 0 * B + BL = BL by ring] at hcap
    omega
  | 0, .inner e cs, hw, q, m, hm, hdvd, hcap, ed, lf, hlf => by
    simp [wfN] at hw
  | h + 1, .leaf e vs, hw, q, m, hm, hdvd, hcap, ed, lf, hlf => by
    simp [wfN] at hw
  | h + 1, .inner e cs, hw, q, m, hm, hdvd, hcap, ed, lf, hlf => by
    obtain ⟨h1, h2, h3, h4⟩ := wfN_inner_parts B BL hw
    have hcpos : 0 < 2 ^ (h * B + BL) := Nat.pos_pow_of_pos _ (by omega)
    have hLpos : (0:Nat) < 2 ^ BL := Nat.pos_pow_of_pos _ (by omega)
    have hcdvd : 2 ^ BL ∣ 2 ^ (h * B + BL) := pow_dvd_pow 2 (by omega)
    rw [treeList_inner] at hm
    have hmlt : m < 2 ^ ((h + 1) * B + BL) := by
      have := Nat.lt_of_lt_of_le (Nat.lt_of_lt_of_le (Nat.lt_add_of_pos_right
        hLpos) hcap) (le_refl _)
      exact this
    have hslot := slot_eq B BL h q m hmlt
    by_cases hdvdc : 2 ^ (h * B + BL) ∣ m
    · -- the trunk position starts a new child: append a fresh spine
      have hfullall : ∀ k, k < cs.length → ∀ t', cs[k]? = some t' →
          (treeList t').length = 2 ^ (h * B + BL) := by
        intro k hk t' ht'
        by_cases hlast : k + 1 < cs.length
        · exact h3 k hlast t' ht'
        · have hne : cs ≠ [] := by
            intro hcs
            rw [hcs] at hk
            simp at hk
          obtain ⟨tl, htl, hwtl, hpos, hle, hcount⟩ :=
            wfN_last_analysis B BL hw hne
          have hkeq : k = cs.length - 1 := by omega
          subst hkeq
          rw [htl] at ht'
          have heq : t' = tl := by simpa using ht'.symm
          rw [heq]
          have hdvdtl : 2 ^ (h * B + BL) ∣ (treeList tl).length := by
            have hterm : 2 ^ (h * B + BL)
                ∣ (cs.length - 1) * 2 ^ (h * B + BL) :=
              dvd_mul_left _ _
            have hmm : m = (cs.length - 1) * 2 ^ (h * B + BL)
                + (treeList tl).length := by rw [← hm, hcount]
            have := Nat.dvd_sub' hdvdc hterm
            rw [hmm, Nat.add_sub_cancel_left] at this
            exact this
          exact Nat.le_antisymm hle (Nat.le_of_dvd hpos hdvdtl)
      have hmeq : m = cs.length * 2 ^ (h * B + BL) := by
        have := treeListL_take_length (2 ^ (h * B + BL)) cs cs.length
          (le_refl _) (fun k hk t' ht' => hfullall k hk t' ht')
        rw [List.take_length] at this
        rw [← hm, this]
      have hj : (q * 2 ^ ((h + 1) * B + BL) + m) / 2 ^ (h * B + BL) % 2 ^ B
          = cs.length := by
        rw [hslot, hmeq, Nat.mul_div_cancel _ hcpos]
      simp only [pushLeaf]
      rw [hj, if_neg (lt_irrefl _)]
      constructor
      · rw [treeList_inner, treeList_inner, treeListL_append, treeListL_cons,
          treeListL_nil, List.append_nil, newPath_treeList]
      · refine wfN_inner_intro B BL ?_ ?_ ?_ ?_
        · by_contra hcon
          push_neg at hcon
          have hge : 2 ^ B ≤ cs.length := by
            simp only [List.length_append, List.length_singleton] at hcon
            omega
          have hmul : 2 ^ B * 2 ^ (h * B + BL)
              ≤ cs.length * 2 ^ (h * B + BL) :=
            Nat.mul_le_mul_right _ hge
          rw [capacity_succ B BL h] at hcap
          omega
        · intro c' hc'
          rcases List.mem_append.1 hc' with hmem | hmem
          · exact h2 c' hmem
          · rw [List.mem_singleton] at hmem
            subst hmem
            exact newPath_wf B BL ed h lf hlf
        · intro k hk c'' hc''
          have hklt : k < cs.length := by
            simp only [List.length_append, List.length_singleton] at hk
            omega
          rw [List.getElem?_append_left hklt] at hc''
          exact hfullall k hklt c'' hc''
        · intro c'' hc''
          rw [List.getLast?_concat] at hc''
          obtain rfl : c'' = newPath ed h lf := by simpa using hc''.symm
          rw [newPath_treeList, wfN_zero_length B BL hlf]
          exact hLpos
    · -- the trunk position falls inside the (partial) last child: descend
      have hne : cs ≠ [] := by
        intro hcs
        subst hcs
        simp only [treeListL_nil, List.length_nil] at hm
        exact hdvdc (by rw [← hm]; exact dvd_zero _)
      obtain ⟨tl, htl, hwtl, hpos, hle, hcount⟩ := wfN_last_analysis B BL hw hne
      have hk1 : 1 ≤ cs.length := List.length_pos.2 hne
      have hmsum : m = (cs.length - 1) * 2 ^ (h * B + BL)
          + (treeList tl).length := by rw [← hm, hcount]
      have hlt_tl : (treeList tl).length < 2 ^ (h * B + BL) := by
        rcases Nat.lt_or_ge (treeList tl).length (2 ^ (h * B + BL)) with
          hx | hx
        · exact hx
        · exfalso
          apply hdvdc
          have hfull : (treeList tl).length = 2 ^ (h * B + BL) :=
            Nat.le_antisymm hle hx
          rw [hmsum, hfull,
            show (cs.length - 1) * 2 ^ (h * B + BL) + 2 ^ (h * B + BL)
              = (cs.length - 1 + 1) * 2 ^ (h * B + BL) by ring]
          exact dvd_mul_left _ _
      have hdiv : m / 2 ^ (h * B + BL) = cs.length - 1 := by
        rw [hmsum, Nat.mul_comm, Nat.mul_add_div hcpos,
          Nat.div_eq_of_lt hlt_tl, Nat.add_zero]
      have hmod : m % 2 ^ (h * B + BL) = (treeList tl).length := by
        rw [hmsum, Nat.mul_comm, Nat.mul_add_mod, Nat.mod_eq_of_lt hlt_tl]
      have hjlt : m / 2 ^ (h * B + BL) < cs.length := by
        rw [hdiv]
        omega
      have hdvdtl : 2 ^ BL ∣ (treeList tl).length :=
        treeList_dvd_len B BL h tl hwtl
      have hcaptl : (treeList tl).length + 2 ^ BL ≤ 2 ^ (h * B + BL) :=
        dvd_add_le hlt_tl hdvdtl hcdvd
      have ih := pushLeaf_spec h tl hwtl (q * 2 ^ B + m / 2 ^ (h * B + BL))
        (treeList tl).length rfl hdvdtl hcaptl ed lf hlf
      have hidx : (q * 2 ^ B + m / 2 ^ (h * B + BL)) * 2 ^ (h * B + BL)
          + (treeList tl).length = q * 2 ^ ((h + 1) * B + BL) + m := by
        rw [← hmod]
        exact (index_decomp B BL h q m).symm
      rw [hidx] at ih
      have htl' : cs[m / 2 ^ (h * B + BL)]? = some tl := by
        rw [hdiv]
        exact htl
      simp only [pushLeaf]
      rw [hslot, if_pos hjlt]
      have hmodif := treeListL_listModify_decomp
        (fun c => pushLeaf B BL ed h c (q * 2 ^ ((h + 1) * B + BL) + m) lf)
        cs _ hjlt tl htl'
      rw [show (fun c => pushLeaf B BL ed h c
          (q * 2 ^ ((h + 1) * B + BL) + m) lf) tl
        = pushLeaf B BL ed h tl (q * 2 ^ ((h + 1) * B + BL) + m) lf
        from rfl] at hmodif
      have hdecomp := treeListL_decomp cs _ hjlt tl htl'
      have hdropnil : cs.drop (m / 2 ^ (h * B + BL) + 1) = [] := by
        rw [hdiv, show cs.length - 1 + 1 = cs.length by omega,
          List.drop_length]
      constructor
      · rw [treeList_inner, treeList_inner, hmodif, hdecomp, hdropnil, ih.1]
        simp [List.append_assoc]
      · refine wfN_inner_intro B BL ?_ ?_ ?_ ?_
        · rw [length_listModify]
          exact h1
        · intro c' hc'
          rcases mem_listModify _ _ _ c' hc' with hmem | ⟨y, hy, rfl⟩
          · exact h2 c' hmem
          · obtain rfl : y = tl := by rw [htl'] at hy; simpa using hy.symm
            exact ih.2
        · intro k hk c'' hc''
          rw [length_listModify] at hk
          rw [listModify_getElem?] at hc''
          have hkne : k ≠ m / 2 ^ (h * B + BL) := by
            rw [hdiv]
            omega
          rw [if_neg hkne] at hc''
          exact h3 k hk c'' hc''
        · intro c'' hc''
          rw [List.getLast?_eq_getElem?, length_listModify,
            listModify_getElem?, if_pos hdiv.symm, htl] at hc''
          have hc3 : c'' = pushLeaf B BL ed h tl
              (q * 2 ^ ((h + 1) * B + BL) + m) lf := by
            simpa [eq_comm] using hc''
          subst hc3
          rw [ih.1]
          simp only [List.length_append]
          omega

end PushSpec

section TakeDef

variable {α : Type} (B BL : Nat)

open Node

/-- Modelled from the spec: truncating a trunk subtree to its first `m`
elements, `0 < m ≤` current count (spec section 4.4, "the trunk is
dropped-right along the radix path for `n`"): keep the children that stay
fully covered, recurse into the child holding index `m − 1`, truncate the
final leaf.  Kept siblings stay shared; nodes on the path carry stamp
`ed`. -/
def takeTree (ed : Option Nat) : Nat → Node α → Nat → Node α
  | 0, .leaf _ vs, m => .leaf ed (vs.take m)
  | 0, .inner e cs, _ => .inner e cs
  | h + 1, .inner _ cs, m =>
      match cs[(m - 1) / 2 ^ (h * B + BL)]? with
      | some c => .inner ed (cs.take ((m - 1) / 2 ^ (h * B + BL))
          ++ [takeTree ed h c
                (m - (m - 1) / 2 ^ (h * B + BL) * 2 ^ (h * B + BL))])
      | none => .inner ed cs
  | _ + 1, .leaf e vs, _ => .leaf e vs

/-- Modelled from the spec: after a truncation, collapse the root while it
has a single child, lowering the root height by one each time; a root
whose children are leaves (height 1) is never collapsed further
(spec section 4.4, "collapse the root while it has a single child to lower
`shift`"). -/
def collapse : Nat → Node α → Nat × Node α
  | 0, t => (0, t)
  | 1, t => (1, t)
  | h + 2, .leaf e vs => (h + 2, .leaf e vs)
  | h + 2, .inner e cs =>
      match cs with
      | [c] => collapse (h + 1) c
      | _ => (h + 2, .inner e cs)

/-- Modelled from the spec: the radix descent to the leaf chunk holding
index `i` (used by `take` to build the new tail out of the leaf that
contains index `n − 1`, spec section 4.4). -/
def leafFor : Nat → Node α → Nat → List α
  | 0, .leaf _ vs, _ => vs
  | 0, .inner _ _, _ => []
  | _ + 1, .leaf _ _, _ => []
  | h + 1, .inner _ cs, i =>
      match cs[i / 2 ^ (h * B + BL) % 2 ^ B]? with
      | some c => leafFor h c i
      | none => []

end TakeDef

section TakeSpec

variable {α : Type} (B BL : Nat)

open Node

/-- Trunk truncation is list `take`: on a well-formed subtree, keeping the
first `m` elements (a positive multiple of the leaf size, not exceeding
the current count) flattens to `List.take m` and preserves the
invariant. -/
theorem takeTree_spec :
    ∀ (h : Nat) (t : Node α), wfN B BL h t = true →
      ∀ (m : Nat), 0 < m → m ≤ (treeList t).length → 2 ^ BL ∣ m →
        ∀ (ed : Option Nat),
        treeList (takeTree B BL ed h t m) = (treeList t).take m
          ∧ wfN B BL h (takeTree B BL ed h t m) = true
  | 0, .leaf e vs, hw, m, hm0, hmle, hdvd, ed => by
    simp only [wfN, beq_iff_eq] at hw
    rw [treeList_leaf] at hmle
    have hmeq : m = 2 ^ BL := Nat.le_antisymm (hw ▸ hmle)
      (Nat.le_of_dvd hm0 hdvd)
    constructor
    · simp [takeTree]
    · simp only [takeTree, wfN, treeList_leaf, beq_iff_eq,
        List.length_take, hw, hmeq]
      simp
  | 0, .inner e cs, hw, m, hm0, hmle, hdvd, ed => by simp [wfN] at hw
  | h + 1, .leaf e vs, hw, m, hm0, hmle, hdvd, ed => by simp [wfN] at hw
  | h + 1, .inner e cs, hw, m, hm0, hmle, hdvd, ed => by
    obtain ⟨h1, h2, h3, h4⟩ := wfN_inner_parts B BL hw
    have hcpos : 0 < 2 ^ (h * B + BL) := Nat.pos_pow_of_pos _ (by omega)
    have hLpos : (0:Nat) < 2 ^ BL := Nat.pos_pow_of_pos _ (by omega)
    have hcdvd : 2 ^ BL ∣ 2 ^ (h * B + BL) := pow_dvd_pow 2 (by omega)
    rw [treeList_inner] at hmle
    have hne : cs ≠ [] := by
      intro hcs
      subst hcs
      simp only [treeListL_nil, List.length_nil] at hmle
      omega
    obtain ⟨tl, htl, hwtl, hpos, hle, hcount⟩ := wfN_last_analysis B BL hw hne
    have hk1 : 1 ≤ cs.length := List.length_pos.2 hne
    -- the index of the child containing element m−1
    have hjlt : (m - 1) / 2 ^ (h * B + BL) < cs.length := by
      rw [Nat.div_lt_iff_lt_mul hcpos]
      have hbound : (treeListL cs).length ≤ cs.length * 2 ^ (h * B + BL) :=
        treeListL_length_le _ cs
          (fun c hcm => treeList_length_le B BL h c (h2 c hcm))
      omega
    have htj : ∃ tj, cs[(m - 1) / 2 ^ (h * B + BL)]? = some tj :=
      ⟨cs.get ⟨_, hjlt⟩, by rw [List.getElem?_eq_getElem hjlt]; rfl⟩
    obtain ⟨tj, htjeq⟩ := htj
    have hmemtj : tj ∈ cs := List.mem_iff_getElem?.2 ⟨_, htjeq⟩
    have hwtj : wfN B BL h tj = true := h2 tj hmemtj
    -- the local remainder kept inside child j
    have hjc : (m - 1) / 2 ^ (h * B + BL) * 2 ^ (h * B + BL) ≤ m - 1 :=
      Nat.div_mul_le_self _ _
    have hmrem : m - 1
        < ((m - 1) / 2 ^ (h * B + BL) + 1) * 2 ^ (h * B + BL) := by
      have hdm := Nat.div_add_mod (m - 1) (2 ^ (h * B + BL))
      have hmod := Nat.mod_lt (m - 1) hcpos
      rw [Nat.add_mul, Nat.one_mul,
        Nat.mul_comm ((m - 1) / 2 ^ (h * B + BL)) (2 ^ (h * B + BL))]
      omega
    have hrem0 : 0 < m - (m - 1) / 2 ^ (h * B + BL) * 2 ^ (h * B + BL) := by
      omega
    have hremc : m - (m - 1) / 2 ^ (h * B + BL) * 2 ^ (h * B + BL)
        ≤ 2 ^ (h * B + BL) := by
      have := hmrem
      rw [Nat.add_mul, Nat.one_mul] at this
      omega
    have hremdvd : 2 ^ BL
        ∣ m - (m - 1) / 2 ^ (h * B + BL) * 2 ^ (h * B + BL) :=
      Nat.dvd_sub' hdvd (Dvd.dvd.mul_left hcdvd _)
    -- the remainder fits in child j
    have hremlen : m - (m - 1) / 2 ^ (h * B + BL) * 2 ^ (h * B + BL)
        ≤ (treeList tj).length := by
      by_cases hlast : (m - 1) / 2 ^ (h * B + BL) + 1 < cs.length
      · have := h3 _ hlast tj htjeq
        omega
      · have hjeq : (m - 1) / 2 ^ (h * B + BL) = cs.length - 1 := by omega
        have : tj = tl := by
          rw [hjeq] at htjeq
          rw [htl] at htjeq
          simpa using htjeq.symm
        subst this
        have hmlast : m ≤ (cs.length - 1) * 2 ^ (h * B + BL)
            + (treeList tj).length := by
          rw [← hcount]
          exact hmle
        rw [hjeq]
        omega
    have ih := takeTree_spec h tj hwtj
      (m - (m - 1) / 2 ^ (h * B + BL) * 2 ^ (h * B + BL)) hrem0 hremlen
      hremdvd ed
    -- children before j are all full
    have hjfull : ∀ k, k < (m - 1) / 2 ^ (h * B + BL) → ∀ t',
        cs[k]? = some t' → (treeList t').length = 2 ^ (h * B + BL) :=
      fun k hk t' ht' => h3 k (by omega) t' ht'
    have htake := treeListL_take_length (2 ^ (h * B + BL)) cs
      ((m - 1) / 2 ^ (h * B + BL)) (le_of_lt hjlt) hjfull
    have hdecomp := treeListL_decomp cs _ hjlt tj htjeq
    have hunfold : takeTree B BL ed (h + 1) (.inner e cs) m
        = .inner ed (cs.take ((m - 1) / 2 ^ (h * B + BL))
            ++ [takeTree B BL ed h tj
                  (m - (m - 1) / 2 ^ (h * B + BL) * 2 ^ (h * B + BL))]) := by
      rw [takeTree, htjeq]
    constructor
    · rw [hunfold, treeList_inner, treeListL_append, treeListL_cons,
        treeListL_nil, List.append_nil, ih.1, treeList_inner, hdecomp]
      have hm2 : m = (treeListL (cs.take ((m - 1) / 2 ^ (h * B + BL)))).length
          + (m - (m - 1) / 2 ^ (h * B + BL) * 2 ^ (h * B + BL)) := by
        rw [htake]
        omega
      calc treeListL (cs.take ((m - 1) / 2 ^ (h * B + BL)))
            ++ (treeList tj).take
              (m - (m - 1) / 2 ^ (h * B + BL) * 2 ^ (h * B + BL))
          = (treeListL (cs.take ((m - 1) / 2 ^ (h * B + BL)))
              ++ (treeList tj
                ++ treeListL (cs.drop ((m - 1) / 2 ^ (h * B + BL) + 1)))).take
            ((treeListL (cs.take ((m - 1) / 2 ^ (h * B + BL)))).length
              + (m - (m - 1) / 2 ^ (h * B + BL) * 2 ^ (h * B + BL))) := by
            rw [List.take_append, List.take_append_of_le_length hremlen]
        _ = _ := by rw [← hm2]
    · rw [hunfold]
      refine wfN_inner_intro B BL ?_ ?_ ?_ ?_
      · simp only [List.length_append, List.length_take,
          List.length_singleton]
        omega
      · intro c' hc'
        rcases List.mem_append.1 hc' with hmem | hmem
        · exact h2 c' (List.mem_of_mem_take hmem)
        · rw [List.mem_singleton] at hmem
          subst hmem
          exact ih.2
      · intro k hk c'' hc''
        have hklt : k < (m - 1) / 2 ^ (h * B + BL) := by
          simp only [List.length_append, List.length_take,
            List.length_singleton] at hk
          omega
        rw [List.getElem?_append_left (by simp [List.length_take]; omega),
          List.getElem?_take_of_lt hklt] at hc''
        exact hjfull k hklt c'' hc''
      · intro c'' hc''
        rw [List.getLast?_concat] at hc''
        obtain rfl : c'' = takeTree B BL ed h tj
            (m - (m - 1) / 2 ^ (h * B + BL) * 2 ^ (h * B + BL)) := by
          simpa using hc''.symm
        rw [ih.1, List.length_take]
        omega

end TakeSpec

section CollapseSpec

variable {α : Type} (B BL : Nat)

open Node

theorem collapse_treeList :
    ∀ (h : Nat) (t : Node α), treeList (collapse h t).2 = treeList t
  | 0, _ => rfl
  | 1, _ => rfl
  | _ + 2, .leaf _ _ => rfl
  | _ + 2, .inner _ [] => rfl
  | h + 2, .inner e [c] => by
    rw [show collapse (h + 2) (Node.inner e [c]) = collapse (h + 1) c
      from rfl, collapse_treeList (h + 1) c]
    simp
  | _ + 2, .inner _ (_ :: _ :: _) => rfl

/-- Root collapse keeps the invariant, never collapses below height 1,
and afterwards the root height is minimal: at height ≥ 2 the element
count exceeds the capacity of the next lower height. -/
theorem collapse_spec :
    ∀ (h : Nat) (t : Node α), wfN B BL h t = true →
      0 < (treeList t).length → 1 ≤ h →
      wfN B BL (collapse h t).1 (collapse h t).2 = true
      ∧ 1 ≤ (collapse h t).1 ∧ (collapse h t).1 ≤ h
      ∧ (2 ≤ (collapse h t).1 →
          2 ^ (((collapse h t).1 - 1) * B + BL) < (treeList t).length)
  | 0, t, hw, hlen, hh => by omega
  | 1, t, hw, hlen, hh => by
    simp only [collapse]
    exact ⟨hw, le_refl _, le_refl _, by omega⟩
  | h + 2, .leaf e vs, hw, hlen, hh => by simp [wfN] at hw
  | h + 2, .inner e [], hw, hlen, hh => by
    rw [treeList_inner, treeListL_nil] at hlen
    simp at hlen
  | h + 2, .inner e [c], hw, hlen, hh => by
    obtain ⟨h1, h2, h3, h4⟩ := wfN_inner_parts B BL hw
    have hwc : wfN B BL (h + 1) c = true := h2 c (by simp)
    have hlen' : 0 < (treeList c).length := by
      rw [treeList_inner, treeListL_cons, treeListL_nil,
        List.append_nil] at hlen
      exact hlen
    have ih := collapse_spec (h + 1) c hwc hlen' (by omega)
    rw [show collapse (h + 2) (Node.inner e [c]) = collapse (h + 1) c
      from rfl]
    refine ⟨ih.1, ih.2.1, by omega, ?_⟩
    intro hge
    have := ih.2.2.2 hge
    rw [treeList_inner, treeListL_cons, treeListL_nil, List.append_nil]
    exact this
  | h + 2, .inner e (c1 :: c2 :: cs), hw, hlen, hh => by
    have hcol : collapse (h + 2) (Node.inner e (c1 :: c2 :: cs))
        = (h + 2, Node.inner e (c1 :: c2 :: cs)) := rfl
    rw [hcol]
    obtain ⟨h1, h2, h3, h4⟩ := wfN_inner_parts B BL hw
    refine ⟨hw, by omega, le_refl _, ?_⟩
    intro _
    obtain ⟨tl, htl, hwtl, hpos, hle, hcount⟩ :=
      wfN_last_analysis B BL hw (by simp)
    have hcapmul : 2 ^ ((h + 1) * B + BL)
        ≤ ((c1 :: c2 :: cs).length - 1) * 2 ^ ((h + 1) * B + BL) :=
      Nat.le_mul_of_pos_left _ (by simp)
    rw [show h + 2 - 1 = h + 1 from rfl, treeList_inner, hcount]
    omega

end CollapseSpec

section LeafForSpec

variable {α : Type} (B BL : Nat)

open Node

/-- The radix descent of `leafFor` returns exactly the leaf-sized chunk of
the flattened subtree that contains local index `r`. -/
theorem leafFor_spec :
    ∀ (h : Nat) (t : Node α), wfN B BL h t = true →
      ∀ (q r : Nat), r < (treeList t).length →
        leafFor B BL h t (q * 2 ^ (h * B + BL) + r)
          = ((treeList t).drop (r / 2 ^ BL * 2 ^ BL)).take (2 ^ BL)
  | 0, .leaf e vs, hw, q, r, hr => by
    simp only [wfN, beq_iff_eq] at hw
    rw [treeList_leaf] at hr ⊢
    rw [leafFor]
    have hzero : r / 2 ^ BL = 0 := Nat.div_eq_of_lt (by omega)
    rw [hzero, Nat.zero_mul, List.drop_zero, ← hw, List.take_length]
  | 0, .inner e cs, hw, q, r, hr => by simp [wfN] at hw
  | h + 1, .leaf e vs, hw, q, r, hr => by simp [wfN] at hw
  | h + 1, .inner e cs, hw, q, r, hr => by
    obtain ⟨h1, h2, h3, h4⟩ := wfN_inner_parts B BL hw
    have hcpos : 0 < 2 ^ (h * B + BL) := Nat.pos_pow_of_pos _ (by omega)
    have hLpos : (0:Nat) < 2 ^ BL := Nat.pos_pow_of_pos _ (by omega)
    have hcdvd : 2 ^ BL ∣ 2 ^ (h * B + BL) := pow_dvd_pow 2 (by omega)
    rw [treeList_inner] at hr
    obtain ⟨t, ht, hlt, _⟩ :=
      treeListL_chunk_get? (2 ^ (h * B + BL)) hcpos cs r h3
        (fun t htm => treeList_length_le B BL h t (h2 t htm)) hr
    have hcap : r < 2 ^ ((h + 1) * B + BL) :=
      lt_of_lt_of_le hr
        (by simpa using treeList_length_le B BL (h + 1) (.inner e cs) hw)
    have hslot := slot_eq B BL h q r hcap
    obtain ⟨hjlt, -⟩ := List.getElem?_eq_some.1 ht
    have hwt : wfN B BL h t = true :=
      h2 t (List.mem_iff_getElem?.2 ⟨_, ht⟩)
    have hXdvd : 2 ^ BL ∣ (treeList t).length := treeList_dvd_len B BL h t hwt
    have hxdvd : 2 ^ BL ∣ r % 2 ^ (h * B + BL) / 2 ^ BL * 2 ^ BL :=
      dvd_mul_left _ _
    have hxle : r % 2 ^ (h * B + BL) / 2 ^ BL * 2 ^ BL
        ≤ r % 2 ^ (h * B + BL) := Nat.div_mul_le_self _ _
    have hxL : r % 2 ^ (h * B + BL) / 2 ^ BL * 2 ^ BL + 2 ^ BL
        ≤ (treeList t).length :=
      dvd_add_le (by omega) hxdvd hXdvd
    have ih := leafFor_spec h t hwt (q * 2 ^ B + r / 2 ^ (h * B + BL))
      (r % 2 ^ (h * B + BL)) hlt
    rw [← index_decomp B BL h q r] at ih
    rw [leafFor, hslot, ht]
    dsimp only
    rw [ih]
    -- relate the global and local chunk offsets
    have hxeq : r / 2 ^ BL * 2 ^ BL
        = r / 2 ^ (h * B + BL) * 2 ^ (h * B + BL)
          + r % 2 ^ (h * B + BL) / 2 ^ BL * 2 ^ BL := by
      have hcL : 2 ^ (h * B + BL) = 2 ^ BL * 2 ^ (h * B) := by
        rw [← pow_add]
        congr 1
        omega
      have hsplit : r = 2 ^ BL * (r / 2 ^ (h * B + BL) * 2 ^ (h * B))
          + r % 2 ^ (h * B + BL) := by
        have hdm := Nat.div_add_mod r (2 ^ (h * B + BL))
        calc r = 2 ^ (h * B + BL) * (r / 2 ^ (h * B + BL))
              + r % 2 ^ (h * B + BL) := hdm.symm
          _ = 2 ^ BL * (r / 2 ^ (h * B + BL) * 2 ^ (h * B))
              + r % 2 ^ (h * B + BL) := by rw [hcL]; ring
      calc r / 2 ^ BL * 2 ^ BL
          = (r / 2 ^ (h * B + BL) * 2 ^ (h * B)
              + r % 2 ^ (h * B + BL) / 2 ^ BL) * 2 ^ BL := by
            rw [show r / 2 ^ BL = r / 2 ^ (h * B + BL) * 2 ^ (h * B)
                + r % 2 ^ (h * B + BL) / 2 ^ BL from by
              conv_lhs => rw [hsplit]
              rw [Nat.mul_add_div hLpos]]
        _ = _ := by rw [hcL]; ring
    -- decompose the flattened list and push drop/take through
    have hdecomp := treeListL_decomp cs _ hjlt t ht
    have htake := treeListL_take_length (2 ^ (h * B + BL)) cs
      (r / 2 ^ (h * B + BL)) (le_of_lt hjlt)
      (fun k hk t' ht' => h3 k (by omega) t' ht')
    rw [treeList_inner, hdecomp, hxeq, ← htake, List.drop_append,
      List.drop_append_of_le_length (by omega),
      List.take_append_of_le_length (by rw [List.length_drop]; omega)]

end LeafForSpec

/-- Modelled from the spec: the trie state of the container (spec
section 3, "Trie state"), standing for the missing
`detail::rbts::rbtree<T, MemoryPolicy, B, BL>`: element count `size`,
root level bit shift `shift`, the trunk `root`, and the tail leaf, here
modelled directly by its list of values. -/
structure RBTree (α : Type) where
  size : Nat
  shift : Nat
  root : Node α
  tail : List α
deriving Repr

namespace RBTree

variable {α : Type} (B BL : Nat)

open Node

/-- Modelled from the spec: the canonical empty value (`impl_t::empty`,
spec section 3, invariant 5): `size = 0`, `shift = 0`, a shared empty
inner root and an empty tail. -/
def empty : RBTree α := ⟨0, 0, .inner none [], []⟩

/-- The elements of the container in index order: the trunk's leaves
depth-first, then the tail (spec section 4.1, chunk iteration). -/
def toList (v : RBTree α) : List α := treeList v.root ++ v.tail

/-- Modelled from the spec: random access (spec section 4.1, standing for
the missing `rbtree::get`): indices at or beyond `tail_offset =
size − tail_size` are read from the tail, the rest by radix descent from
the root.  Out-of-range access, undefined behaviour in the code, yields
`none`. -/
def get? (v : RBTree α) (i : Nat) : Option α :=
  if v.size - v.tail.length ≤ i then v.tail[i - (v.size - v.tail.length)]?
  else treeGet B BL (v.shift / B + 1) v.root i

/-- Modelled from the spec: append (spec section 4.2, standing for the
missing `rbtree::push_back` / `push_back_mut`).  Case A: the tail is not
full — extend the tail.  Case B: the tail is full — incorporate it into
the trunk, growing the root when the trunk is at capacity for the current
shift, and start a fresh one-element tail.  `ed` is the edit stamp written
on nodes created along the way (`none` on the persistent path). -/
def pushBackAux (ed : Option Nat) (v : RBTree α) (x : α) : RBTree α :=
  if v.tail.length < 2 ^ BL then
    { v with size := v.size + 1, tail := v.tail ++ [x] }
  else
    if 2 ^ ((v.shift / B + 1) * B + BL) ≤ v.size - v.tail.length then
      { size := v.size + 1, shift := v.shift + B,
        root := .inner ed [v.root,
          newPath ed (v.shift / B + 1) (.leaf ed v.tail)],
        tail := [x] }
    else
      { size := v.size + 1, shift := v.shift,
        root := pushLeaf B BL ed (v.shift / B + 1) v.root
          (v.size - v.tail.length) (.leaf ed v.tail),
        tail := [x] }

/-- Modelled from the spec: positional update (spec section 4.3, standing
for the missing `rbtree::update` / `do_update`): a tail position is
rewritten in (a clone of) the tail, a trunk position through the radix
write path. -/
def updateAux (ed : Option Nat) (v : RBTree α) (i : Nat)
    (f : α → α) : RBTree α :=
  if v.size - v.tail.length ≤ i then
    { v with tail := listModify f (i - (v.size - v.tail.length)) v.tail }
  else
    { v with root := treeUpdate B BL ed f (v.shift / B + 1) v.root i }

/-- Modelled from the spec: truncation to the first `n` elements (spec
section 4.4, standing for the missing `rbtree::take`): `n` is clamped to
`[0, size]`; `n = 0` returns the canonical empty value; a cut inside the
tail truncates the tail; a cut inside the trunk truncates the trunk along
the radix path, makes the leaf containing index `n − 1` the new tail, and
collapses the root while it has a single child. -/
def takeAux (ed : Option Nat) (v : RBTree α) (n : Nat) : RBTree α :=
  if v.size ≤ n then v
  else if n = 0 then empty
  else if v.size - v.tail.length < n then
    { v with
        size := n
        tail := v.tail.take (n - (v.size - v.tail.length)) }
  else
    if n - ((n - 1) % 2 ^ BL + 1) = 0 then
      { size := n, shift := 0, root := .inner none [],
        tail := (leafFor B BL (v.shift / B + 1) v.root (n - 1)).take
          ((n - 1) % 2 ^ BL + 1) }
    else
      { size := n,
        shift := ((collapse (v.shift / B + 1)
          (takeTree B BL ed (v.shift / B + 1) v.root
            (n - ((n - 1) % 2 ^ BL + 1)))).1 - 1) * B,
        root := (collapse (v.shift / B + 1)
          (takeTree B BL ed (v.shift / B + 1) v.root
            (n - ((n - 1) % 2 ^ BL + 1)))).2,
        tail := (leafFor B BL (v.shift / B + 1) v.root (n - 1)).take
          ((n - 1) % 2 ^ BL + 1) }

/-- Modelled from the spec: the representation invariant of an observable
trie value (spec section 3, invariants 1–5 and derived quantities):
well-formed trunk at the height determined by `shift`, consistent size,
tail of at most `LEAF` elements, nonempty tail whenever the value is
nonempty, `shift` a multiple of `B`, and `shift` minimal. -/
def valid (v : RBTree α) : Bool :=
  wfN B BL (v.shift / B + 1) v.root
  && v.size == (treeList v.root).length + v.tail.length
  && decide (v.tail.length ≤ 2 ^ BL)
  && (v.size == 0 || decide (0 < v.tail.length))
  && v.shift % B == 0
  && (v.shift == 0
      || decide (2 ^ (v.shift / B * B + BL) < (treeList v.root).length))

theorem valid_parts {v : RBTree α} (hv : valid B BL v = true) :
    wfN B BL (v.shift / B + 1) v.root = true
    ∧ v.size = (treeList v.root).length + v.tail.length
    ∧ v.tail.length ≤ 2 ^ BL
    ∧ (0 < v.size → 0 < v.tail.length)
    ∧ v.shift % B = 0
    ∧ (v.shift ≠ 0 →
        2 ^ (v.shift / B * B + BL) < (treeList v.root).length) := by
  simp only [valid, Bool.and_eq_true, Bool.or_eq_true, decide_eq_true_eq,
    beq_iff_eq] at hv
  obtain ⟨⟨⟨⟨⟨hwf, hsz⟩, htl⟩, hne⟩, hsh⟩, hmin⟩ := hv
  refine ⟨hwf, hsz, htl, ?_, hsh, ?_⟩
  · intro hpos
    rcases hne with h | h
    · omega
    · exact h
  · intro hnz
    rcases hmin with h | h
    · omega
    · exact h

theorem valid_intro {v : RBTree α}
    (hwf : wfN B BL (v.shift / B + 1) v.root = true)
    (hsz : v.size = (treeList v.root).length + v.tail.length)
    (htl : v.tail.length ≤ 2 ^ BL)
    (hne : 0 < v.size → 0 < v.tail.length)
    (hsh : v.shift % B = 0)
    (hmin : v.shift ≠ 0 →
      2 ^ (v.shift / B * B + BL) < (treeList v.root).length) :
    valid B BL v = true := by
  simp only [valid, Bool.and_eq_true, Bool.or_eq_true, decide_eq_true_eq,
    beq_iff_eq]
  refine ⟨⟨⟨⟨⟨hwf, hsz⟩, htl⟩, ?_⟩, hsh⟩, ?_⟩
  · by_cases h : v.size = 0
    · exact Or.inl h
    · exact Or.inr (hne (by omega))
  · by_cases h : v.shift = 0
    · exact Or.inl h
    · exact Or.inr (hmin h)

theorem valid_empty : valid B BL (empty : RBTree α) = true := by
  refine valid_intro B BL ?_ ?_ ?_ ?_ ?_ ?_ <;>
    simp [empty, wfN, treeList_inner, treeListL_nil]

@[simp] theorem toList_empty : toList (empty : RBTree α) = [] := by
  simp [toList, empty]

/-- On a valid value, `get?` is list indexing into the flattened
contents. -/
theorem get?_spec {v : RBTree α} (hv : valid B BL v = true) (i : Nat)
    (hi : i < v.size) : get? B BL v i = (toList v)[i]? := by
  obtain ⟨hwf, hsz, htl, hne, hsh, hmin⟩ := valid_parts B BL hv
  rw [get?, toList]
  by_cases hcase : v.size - v.tail.length ≤ i
  · rw [if_pos hcase, List.getElem?_append_right (by omega)]
    congr 1
    omega
  · rw [if_neg hcase]
    have hitr : i < (treeList v.root).length := by omega
    have := treeGet_spec B BL (v.shift / B + 1) v.root hwf 0 i hitr
    rw [Nat.zero_mul, Nat.zero_add] at this
    rw [this, List.getElem?_append_left hitr]

/-- Out-of-range reads return nothing. -/
theorem get?_oob {v : RBTree α} (hv : valid B BL v = true) (i : Nat)
    (hi : v.size ≤ i) : get? B BL v i = none := by
  obtain ⟨hwf, hsz, htl, hne, hsh, hmin⟩ := valid_parts B BL hv
  rw [get?, if_pos (by omega)]
  exact List.getElem?_eq_none (by omega)

theorem size_toList {v : RBTree α} (hv : valid B BL v = true) :
    v.size = (toList v).length := by
  obtain ⟨hwf, hsz, htl, hne, hsh, hmin⟩ := valid_parts B BL hv
  rw [toList, List.length_append]
  omega

/-- Positional update on a valid trie is `listModify` on the flattened
contents (an out-of-range index leaves the value unchanged, matching
`listModify`), and validity is preserved — for any edit stamp. -/
theorem updateAux_spec {v : RBTree α} (hv : valid B BL v = true)
    (ed : Option Nat) (i : Nat) (f : α → α) :
    toList (updateAux B BL ed v i f) = listModify f i (toList v)
      ∧ valid B BL (updateAux B BL ed v i f) = true := by
  obtain ⟨hwf, hsz, htl, hne, hsh, hmin⟩ := valid_parts B BL hv
  rw [updateAux]
  by_cases hcase : v.size - v.tail.length ≤ i
  · rw [if_pos hcase]
    constructor
    · show treeList v.root ++ listModify f (i - (v.size - v.tail.length))
          v.tail = listModify f i (treeList v.root ++ v.tail)
      by_cases hoob : i < v.size
      · have key : ∀ k : Nat, i = (treeList v.root).length + k →
            listModify f i (treeList v.root ++ v.tail)
              = treeList v.root ++ listModify f k v.tail := by
          intro k hk
          rw [hk, listModify_append_right]
        exact (key (i - (v.size - v.tail.length)) (by omega)).symm
      · rw [listModify_of_le f _ _ (by omega),
          listModify_of_le f _ _ (by rw [List.length_append]; omega)]
    · refine valid_intro B BL ?_ ?_ ?_ ?_ ?_ ?_ <;>
        simp only [length_listModify]
      · exact hwf
      · exact hsz
      · exact htl
      · exact hne
      · exact hsh
      · exact hmin
  · rw [if_neg hcase]
    have hitr : i < (treeList v.root).length := by omega
    have hspec := treeUpdate_spec B BL (v.shift / B + 1) v.root hwf 0 i
      hitr ed f
    rw [Nat.zero_mul, Nat.zero_add] at hspec
    have hlen : (treeList (treeUpdate B BL ed f (v.shift / B + 1)
        v.root i)).length = (treeList v.root).length := by
      rw [hspec.1, length_listModify]
    constructor
    · show treeList (treeUpdate B BL ed f (v.shift / B + 1) v.root i)
          ++ v.tail = listModify f i (treeList v.root ++ v.tail)
      rw [hspec.1, listModify_append_left f _ _ _ hitr]
    · refine valid_intro B BL ?_ ?_ ?_ ?_ ?_ ?_
      · exact hspec.2
      · show v.size = (treeList (treeUpdate B BL ed f (v.shift / B + 1)
            v.root i)).length + v.tail.length
        rw [hlen]
        exact hsz
      · exact htl
      · exact hne
      · exact hsh
      · show v.shift ≠ 0 → 2 ^ (v.shift / B * B + BL)
            < (treeList (treeUpdate B BL ed f (v.shift / B + 1)
                v.root i)).length
        rw [hlen]
        exact hmin

/-- Append on a valid trie appends to the flattened contents and
preserves validity — for any edit stamp.  Requires `0 < B` (an inner node
must be able to hold at least two children for root growth). -/
theorem pushBackAux_spec (hB : 0 < B) {v : RBTree α}
    (hv : valid B BL v = true) (ed : Option Nat) (x : α) :
    toList (pushBackAux B BL ed v x) = toList v ++ [x]
      ∧ valid B BL (pushBackAux B BL ed v x) = true := by
  obtain ⟨hwf, hsz, htl, hne, hsh, hmin⟩ := valid_parts B BL hv
  have hLpos : (0:Nat) < 2 ^ BL := Nat.pos_pow_of_pos _ (by omega)
  rw [pushBackAux]
  by_cases hfull : v.tail.length < 2 ^ BL
  · -- Case A: the tail has room
    rw [if_pos hfull]
    constructor
    · show treeList v.root ++ (v.tail ++ [x])
          = treeList v.root ++ v.tail ++ [x]
      rw [List.append_assoc]
    · refine valid_intro B BL ?_ ?_ ?_ ?_ ?_ ?_
      · exact hwf
      · show v.size + 1 = (treeList v.root).length + (v.tail ++ [x]).length
        rw [List.length_append, List.length_singleton]
        omega
      · show (v.tail ++ [x]).length ≤ 2 ^ BL
        rw [List.length_append, List.length_singleton]
        omega
      · intro _
        show 0 < (v.tail ++ [x]).length
        rw [List.length_append, List.length_singleton]
        omega
      · exact hsh
      · exact hmin
  · -- Case B: the tail is full and gets pushed into the trunk
    rw [if_neg hfull]
    have htfull : v.tail.length = 2 ^ BL := by omega
    have hm : (treeList v.root).length = v.size - v.tail.length := by omega
    have hwtail : wfN B BL 0 (Node.leaf ed v.tail) = true := by
      simp [wfN, htfull]
    have hmle : v.size - v.tail.length
        ≤ 2 ^ ((v.shift / B + 1) * B + BL) := by
      have := treeList_length_le B BL (v.shift / B + 1) v.root hwf
      omega
    by_cases hgrow : 2 ^ ((v.shift / B + 1) * B + BL)
        ≤ v.size - v.tail.length
    · -- the trunk is at capacity: grow the root
      rw [if_pos hgrow]
      have hcap : (treeList v.root).length
          = 2 ^ ((v.shift / B + 1) * B + BL) := by omega
      have hwgrow : wfN B BL (v.shift / B + 1 + 1)
          (Node.inner ed [v.root,
            newPath ed (v.shift / B + 1) (.leaf ed v.tail)]) = true := by
        refine wfN_inner_intro B BL ?_ ?_ ?_ ?_
        · show 2 ≤ 2 ^ B
          calc 2 = 2 ^ 1 := by ring
            _ ≤ 2 ^ B := Nat.pow_le_pow_right (by omega) hB
        · intro c hc
          rcases List.mem_cons.1 hc with rfl | hc
          · exact hwf
          · rw [List.mem_singleton] at hc
            subst hc
            exact newPath_wf B BL ed _ _ hwtail
        · intro k hk c hc
          simp only [List.length_cons, List.length_nil] at hk
          have hk0 : k = 0 := by omega
          subst hk0
          simp only [List.getElem?_cons_zero, Option.some.injEq] at hc
          subst hc
          exact hcap
        · intro c hc
          simp only [List.getLast?_cons_cons, List.getLast?_singleton,
            Option.some.injEq] at hc
          subst hc
          rw [newPath_treeList, treeList_leaf, htfull]
          exact hLpos
      have hshift : (v.shift + B) / B = v.shift / B + 1 :=
        Nat.add_div_right _ hB
      constructor
      · show treeList (Node.inner ed [v.root,
            newPath ed (v.shift / B + 1) (.leaf ed v.tail)]) ++ [x]
            = treeList v.root ++ v.tail ++ [x]
        rw [treeList_inner, treeListL_cons, treeListL_cons, treeListL_nil,
          newPath_treeList, treeList_leaf, List.append_nil,
          List.append_assoc]
      · refine valid_intro B BL ?_ ?_ ?_ ?_ ?_ ?_
        · show wfN B BL ((v.shift + B) / B + 1) _ = true
          rw [hshift]
          exact hwgrow
        · show v.size + 1 = (treeList (Node.inner ed [v.root,
              newPath ed (v.shift / B + 1) (.leaf ed v.tail)])).length
              + [x].length
          rw [treeList_inner, treeListL_cons, treeListL_cons, treeListL_nil,
            newPath_treeList, treeList_leaf, List.append_nil,
            List.length_append, List.length_singleton]
          omega
        · show ([x] : List α).length ≤ 2 ^ BL
          exact hLpos
        · intro _
          simp
        · show (v.shift + B) % B = 0
          simp [Nat.add_mod, hsh]
        · intro _
          show 2 ^ ((v.shift + B) / B * B + BL) < _
          rw [hshift, treeList_inner, treeListL_cons, treeListL_cons,
            treeListL_nil, newPath_treeList, treeList_leaf,
            List.append_nil, List.length_append]
          have : 0 < v.tail.length := by omega
          omega
    · -- room at the current shift: push the tail leaf into the trunk
      rw [if_neg hgrow]
      have hdvdm : 2 ^ BL ∣ v.size - v.tail.length := by
        rw [← hm]
        exact treeList_dvd_len B BL _ v.root hwf
      have hcapm : v.size - v.tail.length + 2 ^ BL
          ≤ 2 ^ ((v.shift / B + 1) * B + BL) := by
        refine dvd_add_le (by omega) hdvdm ?_
        exact pow_dvd_pow 2 (by omega)
      have hspec := pushLeaf_spec B BL (v.shift / B + 1) v.root hwf 0
        (v.size - v.tail.length) hm hdvdm hcapm ed (.leaf ed v.tail) hwtail
      rw [Nat.zero_mul, Nat.zero_add] at hspec
      constructor
      · show treeList (pushLeaf B BL ed (v.shift / B + 1) v.root
            (v.size - v.tail.length) (.leaf ed v.tail)) ++ [x]
            = treeList v.root ++ v.tail ++ [x]
        rw [hspec.1, treeList_leaf]
      · refine valid_intro B BL ?_ ?_ ?_ ?_ ?_ ?_
        · exact hspec.2
        · show v.size + 1 = (treeList (pushLeaf B BL ed (v.shift / B + 1)
              v.root (v.size - v.tail.length) (.leaf ed v.tail))).length
              + [x].length
          rw [hspec.1, treeList_leaf, List.length_append,
            List.length_singleton]
          omega
        · show ([x] : List α).length ≤ 2 ^ BL
          exact hLpos
        · intro _
          simp
        · exact hsh
        · intro hnz
          show 2 ^ (v.shift / B * B + BL)
              < (treeList (pushLeaf B BL ed (v.shift / B + 1) v.root
                  (v.size - v.tail.length) (.leaf ed v.tail))).length
          rw [hspec.1, treeList_leaf, List.length_append]
          have := hmin hnz
          omega

/-- Truncation on a valid trie is `List.take` on the flattened contents,
and validity is preserved — for any edit stamp.  Requires `0 < B`. -/
theorem takeAux_spec (hB : 0 < B) {v : RBTree α}
    (hv : valid B BL v = true) (ed : Option Nat) (n : Nat) :
    toList (takeAux B BL ed v n) = (toList v).take n
      ∧ valid B BL (takeAux B BL ed v n) = true := by
  obtain ⟨hwf, hsz, htl, hne, hsh, hmin⟩ := valid_parts B BL hv
  have hLpos : (0:Nat) < 2 ^ BL := Nat.pos_pow_of_pos _ (by omega)
  rw [takeAux]
  by_cases hclamp : v.size ≤ n
  · rw [if_pos hclamp]
    refine ⟨?_, hv⟩
    rw [List.take_of_length_le (by rw [← size_toList B BL hv]; exact hclamp)]
  · rw [if_neg hclamp]
    by_cases hzero : n = 0
    · rw [if_pos hzero]
      subst hzero
      exact ⟨by simp, valid_empty B BL⟩
    · rw [if_neg hzero]
      by_cases htail : v.size - v.tail.length < n
      · -- cut inside the tail
        rw [if_pos htail]
        constructor
        · show treeList v.root ++ v.tail.take (n - (v.size - v.tail.length))
              = (treeList v.root ++ v.tail).take n
          have key : ∀ k, n = (treeList v.root).length + k →
              (treeList v.root ++ v.tail).take n
                = treeList v.root ++ v.tail.take k := by
            intro k hk
            rw [hk, List.take_append]
          exact (key (n - (v.size - v.tail.length)) (by omega)).symm
        · refine valid_intro B BL ?_ ?_ ?_ ?_ ?_ ?_
          · exact hwf
          · show n = (treeList v.root).length
                + (v.tail.take (n - (v.size - v.tail.length))).length
            rw [List.length_take]
            omega
          · show (v.tail.take (n - (v.size - v.tail.length))).length
                ≤ 2 ^ BL
            rw [List.length_take]
            omega
          · intro _
            show 0 < (v.tail.take (n - (v.size - v.tail.length))).length
            rw [List.length_take]
            omega
          · exact hsh
          · exact hmin
      · -- cut inside the trunk
        rw [if_neg htail]
        have hnT : n ≤ (treeList v.root).length := by omega
        have hrT : n - 1 < (treeList v.root).length := by omega
        have hdm := Nat.div_add_mod (n - 1) (2 ^ BL)
        have hmodlt : (n - 1) % 2 ^ BL < 2 ^ BL := Nat.mod_lt _ hLpos
        have hremeq : n - ((n - 1) % 2 ^ BL + 1)
            = 2 ^ BL * ((n - 1) / 2 ^ BL) := by omega
        have hlf := leafFor_spec B BL (v.shift / B + 1) v.root hwf 0
          (n - 1) hrT
        rw [Nat.zero_mul, Nat.zero_add] at hlf
        have hnewTail : (leafFor B BL (v.shift / B + 1) v.root (n - 1)).take
            ((n - 1) % 2 ^ BL + 1)
            = ((treeList v.root).drop (n - ((n - 1) % 2 ^ BL + 1))).take
              ((n - 1) % 2 ^ BL + 1) := by
          rw [hlf, List.take_take, Nat.min_eq_left (by omega), hremeq,
            Nat.mul_comm]
        have hdroplen : ((treeList v.root).drop
            (n - ((n - 1) % 2 ^ BL + 1))).length
            = (treeList v.root).length - (n - ((n - 1) % 2 ^ BL + 1)) := by
          rw [List.length_drop]
        have hnewTailLen : (((treeList v.root).drop
            (n - ((n - 1) % 2 ^ BL + 1))).take
              ((n - 1) % 2 ^ BL + 1)).length = (n - 1) % 2 ^ BL + 1 := by
          rw [List.length_take, hdroplen]
          omega
        by_cases hrem0 : n - ((n - 1) % 2 ^ BL + 1) = 0
        · -- everything left fits in the new tail; the trunk empties
          rw [if_pos hrem0]
          have hn1 : n = (n - 1) % 2 ^ BL + 1 := by omega
          constructor
          · show treeList (Node.inner none ([] : List (Node α)))
                ++ (leafFor B BL (v.shift / B + 1) v.root (n - 1)).take
                  ((n - 1) % 2 ^ BL + 1)
                = (treeList v.root ++ v.tail).take n
            rw [treeList_inner, treeListL_nil, List.nil_append, hnewTail,
              hrem0, List.drop_zero, List.take_append_of_le_length hnT,
              ← hn1]
          · refine valid_intro B BL ?_ ?_ ?_ ?_ ?_ ?_
            · show wfN B BL (0 / B + 1)
                  (Node.inner none ([] : List (Node α))) = true
              rw [Nat.zero_div]
              simp [wfN]
            · show n = (treeList (Node.inner none ([] : List (Node α)))).length
                  + ((leafFor B BL (v.shift / B + 1) v.root (n - 1)).take
                    ((n - 1) % 2 ^ BL + 1)).length
              rw [treeList_inner, treeListL_nil, hnewTail, hnewTailLen]
              simpa using hn1
            · show ((leafFor B BL (v.shift / B + 1) v.root (n - 1)).take
                  ((n - 1) % 2 ^ BL + 1)).length ≤ 2 ^ BL
              rw [hnewTail, hnewTailLen]
              omega
            · intro _
              show 0 < ((leafFor B BL (v.shift / B + 1) v.root (n - 1)).take
                  ((n - 1) % 2 ^ BL + 1)).length
              rw [hnewTail, hnewTailLen]
              omega
            · show (0:Nat) % B = 0
              simp
            · intro hcon
              exact absurd rfl hcon
        · -- the trunk keeps a nonempty prefix
          rw [if_neg hrem0]
          have hremdvd : 2 ^ BL ∣ n - ((n - 1) % 2 ^ BL + 1) :=
            ⟨(n - 1) / 2 ^ BL, hremeq⟩
          have hremle : n - ((n - 1) % 2 ^ BL + 1)
              ≤ (treeList v.root).length := by omega
          have htt := takeTree_spec B BL (v.shift / B + 1) v.root hwf
            (n - ((n - 1) % 2 ^ BL + 1)) (by omega) hremle hremdvd ed
          have httlen : (treeList (takeTree B BL ed (v.shift / B + 1)
              v.root (n - ((n - 1) % 2 ^ BL + 1)))).length
              = n - ((n - 1) % 2 ^ BL + 1) := by
            rw [htt.1, List.length_take]
            omega
          have hcol := collapse_spec B BL (v.shift / B + 1)
            (takeTree B BL ed (v.shift / B + 1) v.root
              (n - ((n - 1) % 2 ^ BL + 1))) htt.2 (by omega)
            (Nat.succ_le_succ (Nat.zero_le _))
          have hcoll := collapse_treeList (v.shift / B + 1)
            (takeTree B BL ed (v.shift / B + 1) v.root
              (n - ((n - 1) % 2 ^ BL + 1)))
          have hh1 : 1 ≤ (collapse (v.shift / B + 1)
              (takeTree B BL ed (v.shift / B + 1) v.root
                (n - ((n - 1) % 2 ^ BL + 1)))).1 := hcol.2.1
          have hdivB : ((collapse (v.shift / B + 1)
              (takeTree B BL ed (v.shift / B + 1) v.root
                (n - ((n - 1) % 2 ^ BL + 1)))).1 - 1) * B / B
              = (collapse (v.shift / B + 1)
                (takeTree B BL ed (v.shift / B + 1) v.root
                  (n - ((n - 1) % 2 ^ BL + 1)))).1 - 1 :=
            Nat.mul_div_cancel _ hB
          constructor
          · show treeList (collapse (v.shift / B + 1)
                (takeTree B BL ed (v.shift / B + 1) v.root
                  (n - ((n - 1) % 2 ^ BL + 1)))).2
                ++ (leafFor B BL (v.shift / B + 1) v.root (n - 1)).take
                  ((n - 1) % 2 ^ BL + 1)
                = (treeList v.root ++ v.tail).take n
            rw [hcoll, htt.1, hnewTail,
              ← List.take_add, show n - ((n - 1) % 2 ^ BL + 1)
                + ((n - 1) % 2 ^ BL + 1) = n by omega,
              List.take_append_of_le_length hnT]
          · refine valid_intro B BL ?_ ?_ ?_ ?_ ?_ ?_
            · show wfN B BL (((collapse (v.shift / B + 1)
                  (takeTree B BL ed (v.shift / B + 1) v.root
                    (n - ((n - 1) % 2 ^ BL + 1)))).1 - 1) * B / B + 1)
                  (collapse (v.shift / B + 1)
                    (takeTree B BL ed (v.shift / B + 1) v.root
                      (n - ((n - 1) % 2 ^ BL + 1)))).2 = true
              rw [hdivB, show (collapse (v.shift / B + 1)
                  (takeTree B BL ed (v.shift / B + 1) v.root
                    (n - ((n - 1) % 2 ^ BL + 1)))).1 - 1 + 1
                = (collapse (v.shift / B + 1)
                  (takeTree B BL ed (v.shift / B + 1) v.root
                    (n - ((n - 1) % 2 ^ BL + 1)))).1 by omega]
              exact hcol.1
            · show n = (treeList (collapse (v.shift / B + 1)
                  (takeTree B BL ed (v.shift / B + 1) v.root
                    (n - ((n - 1) % 2 ^ BL + 1)))).2).length
                  + ((leafFor B BL (v.shift / B + 1) v.root (n - 1)).take
                    ((n - 1) % 2 ^ BL + 1)).length
              rw [hcoll, httlen, hnewTail, hnewTailLen]
              omega
            · show ((leafFor B BL (v.shift / B + 1) v.root (n - 1)).take
                  ((n - 1) % 2 ^ BL + 1)).length ≤ 2 ^ BL
              rw [hnewTail, hnewTailLen]
              omega
            · intro _
              show 0 < ((leafFor B BL (v.shift / B + 1) v.root (n - 1)).take
                  ((n - 1) % 2 ^ BL + 1)).length
              rw [hnewTail, hnewTailLen]
              omega
            · show ((collapse (v.shift / B + 1)
                  (takeTree B BL ed (v.shift / B + 1) v.root
                    (n - ((n - 1) % 2 ^ BL + 1)))).1 - 1) * B % B = 0
              exact Nat.mul_mod_left _ _
            · intro hnz
              have hge2 : 2 ≤ (collapse (v.shift / B + 1)
                  (takeTree B BL ed (v.shift / B + 1) v.root
                    (n - ((n - 1) % 2 ^ BL + 1)))).1 := by
                by_contra hcon
                have h1 : (collapse (v.shift / B + 1)
                    (takeTree B BL ed (v.shift / B + 1) v.root
                      (n - ((n - 1) % 2 ^ BL + 1)))).1 = 1 := by omega
                rw [h1] at hnz
                simp at hnz
              have := hcol.2.2.2 hge2
              rw [hdivB, hcoll]
              rw [httlen] at this ⊢
              exact this

/-- Modelled from the spec: the transient mutating entry points of the
missing rbtree (`push_back_mut`, spec section 4.5): same semantics as the
persistent operation, but nodes written along the path carry the
transient's edit stamp. -/
def push_back_mut (e : Nat) (v : RBTree α) (x : α) : RBTree α :=
  pushBackAux B BL (some e) v x

/-- Modelled from the spec: `assoc_mut` (spec section 4.5), positional
overwrite through a transient with token `e`. -/
def assoc_mut (e : Nat) (v : RBTree α) (i : Nat) (x : α) : RBTree α :=
  updateAux B BL (some e) v i (fun _ => x)

/-- Modelled from the spec: `update_mut` (spec section 4.5). -/
def update_mut (e : Nat) (v : RBTree α) (i : Nat) (f : α → α) : RBTree α :=
  updateAux B BL (some e) v i f

/-- Modelled from the spec: `take_mut` (spec section 4.5). -/
def take_mut (e : Nat) (v : RBTree α) (n : Nat) : RBTree α :=
  takeAux B BL (some e) v n

end RBTree

/-- Modelled from the spec: a transient is the same trie state plus a
process-unique edit token (spec section 4.5), standing for the missing
`vector_transient<T, MemoryPolicy, B, BL>`.  Token identity is modelled
by a natural number. -/
structure vector_transient (α : Type) where
  impl : RBTree α
  token : Nat

namespace vector

variable {α : Type} (B BL : Nat)

/-- From `src/immer/vector.hpp` line 146: `size()` returns
`impl_.size`. -/
def size (v : RBTree α) : Nat := v.size

/-- From `src/immer/vector.hpp` line 152: `empty()` returns
`impl_.size == 0`. -/
def empty (v : RBTree α) : Bool := v.size == 0

/-- From `src/immer/vector.hpp` lines 159–160: `operator[]` returns
`impl_.get(index)` (undefined for `index ≥ size()`, modelled by
`Option`). -/
def get (v : RBTree α) (i : Nat) : Option α := RBTree.get? B BL v i

/-- From `src/immer/vector.hpp` lines 166–167: `push_back` returns
`impl_.push_back(value)`. -/
def push_back (v : RBTree α) (x : α) : RBTree α :=
  RBTree.pushBackAux B BL none v x

/-- From `src/immer/vector.hpp` lines 178–179: `set` returns
`impl_.assoc(index, value)` — the positional write path storing `value`
(spec section 4.3). -/
def set (v : RBTree α) (i : Nat) (x : α) : RBTree α :=
  RBTree.updateAux B BL none v i (fun _ => x)

/-- From `src/immer/vector.hpp` lines 191–193: `update` returns
`impl_.update(index, fn)` — the positional write path storing
`fn(old)`. -/
def update (v : RBTree α) (i : Nat) (f : α → α) : RBTree α :=
  RBTree.updateAux B BL none v i f

/-- From `src/immer/vector.hpp` lines 204–205: `take` returns
`impl_.take(elems)`. -/
def take (v : RBTree α) (n : Nat) : RBTree α :=
  RBTree.takeAux B BL none v n

/-- From `src/immer/vector.hpp` lines 231–234: `transient()` returns
`transient_type{impl_}`.  The fresh edit token `e` minted for the new
transient is passed as a parameter (tokens are allocation identities). -/
def transient (v : RBTree α) (e : Nat) : vector_transient α := ⟨v, e⟩

/-- From `src/immer/vector.hpp` lines 255–258: `push_back_move` on
`std::true_type` (the memory policy sets `use_transient_rvalues`) runs
`impl_.push_back_mut({}, value)` on the expiring value and returns the
same storage; on `std::false_type` it is the persistent
`impl_.push_back(value)`.  The Bool argument stands for
`MemoryPolicy::use_transient_rvalues`, `e` for the edit token minted for
the rvalue. -/
def push_back_move (mv : Bool) (e : Nat) (v : RBTree α) (x : α) : RBTree α :=
  if mv then RBTree.push_back_mut B BL e v x
  else RBTree.pushBackAux B BL none v x

/-- From `src/immer/vector.hpp` lines 260–263: `set_move`. -/
def set_move (mv : Bool) (e : Nat) (v : RBTree α) (i : Nat) (x : α) :
    RBTree α :=
  if mv then RBTree.assoc_mut B BL e v i x
  else RBTree.updateAux B BL none v i (fun _ => x)

/-- From `src/immer/vector.hpp` lines 265–270: `update_move`. -/
def update_move (mv : Bool) (e : Nat) (v : RBTree α) (i : Nat)
    (f : α → α) : RBTree α :=
  if mv then RBTree.update_mut B BL e v i f
  else RBTree.updateAux B BL none v i f

/-- From `src/immer/vector.hpp` lines 272–275: `take_move`. -/
def take_move (mv : Bool) (e : Nat) (v : RBTree α) (n : Nat) : RBTree α :=
  if mv then RBTree.take_mut B BL e v n
  else RBTree.takeAux B BL none v n

end vector

namespace vector_transient

variable {α : Type} (B BL : Nat)

/-- Modelled from the spec (section 4.6): `transient → persistent` drops
the token and publishes the triple in O(1); stamps may remain on nodes
(spec section 4.8). -/
def persistent (t : vector_transient α) : RBTree α := t.impl

/-- Modelled from the spec: transient in-place append (spec section 4.5):
the persistent algorithm writing the transient's own edit stamp. -/
def push_back (t : vector_transient α) (x : α) : vector_transient α :=
  ⟨RBTree.push_back_mut B BL t.token t.impl x, t.token⟩

/-- Modelled from the spec: transient in-place `set` (spec
section 4.5). -/
def set (t : vector_transient α) (i : Nat) (x : α) : vector_transient α :=
  ⟨RBTree.assoc_mut B BL t.token t.impl i x, t.token⟩

/-- Modelled from the spec: transient in-place `update` (spec
section 4.5). -/
def update (t : vector_transient α) (i : Nat) (f : α → α) :
    vector_transient α :=
  ⟨RBTree.update_mut B BL t.token t.impl i f, t.token⟩

/-- Modelled from the spec: transient in-place `take` (spec
section 4.5). -/
def take (t : vector_transient α) (n : Nat) : vector_transient α :=
  ⟨RBTree.take_mut B BL t.token t.impl n, t.token⟩

end vector_transient

/-- An operation of the command sequences considered by the
transient/persistent equivalence property (spec section 8, property 5). -/
inductive Op (α : Type) where
  | push (x : α)
  | set (i : Nat) (x : α)
  | update (i : Nat) (f : α → α)
  | take (n : Nat)

/-- Apply one operation through the persistent interface. -/
def applyP {α : Type} (B BL : Nat) (v : RBTree α) : Op α → RBTree α
  | .push x => vector.push_back B BL v x
  | .set i x => vector.set B BL v i x
  | .update i f => vector.update B BL v i f
  | .take n => vector.take B BL v n

/-- Apply one operation through a transient's mutating interface. -/
def applyT {α : Type} (B BL : Nat) (t : vector_transient α) :
    Op α → vector_transient α
  | .push x => vector_transient.push_back B BL t x
  | .set i x => vector_transient.set B BL t i x
  | .update i f => vector_transient.update B BL t i f
  | .take n => vector_transient.take B BL t n

/-- Apply one operation on the trie state with an explicit edit stamp
(`none`: persistent write path; `some e`: transient write path). -/
def applyOp {α : Type} (B BL : Nat) (ed : Option Nat) (v : RBTree α) :
    Op α → RBTree α
  | .push x => RBTree.pushBackAux B BL ed v x
  | .set i x => RBTree.updateAux B BL ed v i (fun _ => x)
  | .update i f => RBTree.updateAux B BL ed v i f
  | .take n => RBTree.takeAux B BL ed v n

/-- The observable meaning of one operation on the flattened contents. -/
def applyL {α : Type} (op : Op α) (l : List α) : List α :=
  match op with
  | .push x => l ++ [x]
  | .set i x => listModify (fun _ => x) i l
  | .update i f => listModify f i l
  | .take n => l.take n

section Refinement

variable {α : Type} (B BL : Nat)

open RBTree

theorem applyP_eq_applyOp (v : RBTree α) (op : Op α) :
    applyP B BL v op = applyOp B BL none v op := by
  cases op <;> rfl

theorem applyT_eq_applyOp (t : vector_transient α) (op : Op α) :
    applyT B BL t op = ⟨applyOp B BL (some t.token) t.impl op, t.token⟩ := by
  cases op <;> rfl

/-- One step of any of the four operations, with any edit stamp, acts on
the flattened contents as `applyL` and preserves validity. -/
theorem applyOp_spec (hB : 0 < B) {v : RBTree α}
    (hv : valid B BL v = true) (ed : Option Nat) (op : Op α) :
    toList (applyOp B BL ed v op) = applyL op (toList v)
      ∧ valid B BL (applyOp B BL ed v op) = true := by
  cases op with
  | push x => exact pushBackAux_spec B BL hB hv ed x
  | set i x => exact updateAux_spec B BL hv ed i (fun _ => x)
  | update i f => exact updateAux_spec B BL hv ed i f
  | take n => exact takeAux_spec B BL hB hv ed n

/-- Folding a whole command sequence with any edit stamp refines the
list-level fold. -/
theorem foldOp_spec (hB : 0 < B) :
    ∀ (ops : List (Op α)) (v : RBTree α) (ed : Option Nat),
      valid B BL v = true →
      toList (ops.foldl (applyOp B BL ed) v)
          = ops.foldl (fun l op => applyL op l) (toList v)
        ∧ valid B BL (ops.foldl (applyOp B BL ed) v) = true
  | [], v, ed, hv => ⟨rfl, hv⟩
  | op :: ops, v, ed, hv => by
    have hstep := applyOp_spec B BL hB hv ed op
    have hrest := foldOp_spec hB ops (applyOp B BL ed v op) ed hstep.2
    simp only [List.foldl_cons]
    exact ⟨by rw [hrest.1, hstep.1], hrest.2⟩

theorem foldT_impl (e : Nat) :
    ∀ (ops : List (Op α)) (v : RBTree α),
      (ops.foldl (applyT B BL) ⟨v, e⟩)
        = ⟨ops.foldl (applyOp B BL (some e)) v, e⟩
  | [], v => rfl
  | op :: ops, v => by
    simp only [List.foldl_cons, applyT_eq_applyOp]
    exact foldT_impl e ops _

/-- Two valid tries with the same flattened contents are observationally
equal: same reported size, and the same answer to every read. -/
theorem obs_of_toList_eq {a b : RBTree α} (hva : valid B BL a = true)
    (hvb : valid B BL b = true) (h : toList a = toList b) :
    vector.size a = vector.size b
      ∧ ∀ i, vector.get B BL a i = vector.get B BL b i := by
  have hsz : vector.size a = vector.size b := by
    show a.size = b.size
    rw [size_toList B BL hva, size_toList B BL hvb, h]
  refine ⟨hsz, ?_⟩
  intro i
  by_cases hi : i < a.size
  · show get? B BL a i = get? B BL b i
    rw [get?_spec B BL hva i hi, get?_spec B BL hvb i (by
      show i < b.size
      have : vector.size a = vector.size b := hsz
      simp only [vector.size] at this
      omega), h]
  · show get? B BL a i = get? B BL b i
    rw [get?_oob B BL hva i (by omega), get?_oob B BL hvb i (by
      have : vector.size a = vector.size b := hsz
      simp only [vector.size] at this
      omega)]

end Refinement

section Fallible

variable {α ε : Type} (B BL : Nat)

open Node

/-- Modelled from the spec: the `update` write path with a fallible user
callback (spec sections 4.3 and 7): the radix walk builds clones of the
spine; at the leaf the old value is read and `fn` applied to it; if `fn`
raises, the fault unwinds through the write path, the partially built
spine is discarded (it never becomes reachable), and no node the caller
can observe has been modified. -/
def treeUpdateE (ed : Option Nat) (fn : α → Except ε α) :
    Nat → Node α → Nat → Except ε (Node α)
  | 0, .leaf e vs, i =>
      match vs[i % 2 ^ BL]? with
      | some old => (fn old).map (fun x => .leaf ed (vs.set (i % 2 ^ BL) x))
      | none => .ok (.leaf e vs)
  | 0, .inner e cs, _ => .ok (.inner e cs)
  | _ + 1, .leaf e vs, _ => .ok (.leaf e vs)
  | h + 1, .inner e cs, i =>
      match cs[i / 2 ^ (h * B + BL) % 2 ^ B]? with
      | some c => (treeUpdateE ed fn h c i).map
          (fun cnew =>
            .inner ed (cs.set (i / 2 ^ (h * B + BL) % 2 ^ B) cnew))
      | none => .ok (.inner e cs)

/-- Modelled from the spec: `update` with a fallible callback at the
container level (spec section 7, "User-callback faults ... propagate to
the caller; the receiver's observable state must not reflect a partially
applied update"). -/
def updateErr (ed : Option Nat) (v : RBTree α) (i : Nat)
    (fn : α → Except ε α) : Except ε (RBTree α) :=
  if v.size - v.tail.length ≤ i then
    match v.tail[i - (v.size - v.tail.length)]? with
    | some old => (fn old).map (fun x =>
        { v with tail := v.tail.set (i - (v.size - v.tail.length)) x })
    | none => .ok v
  else (treeUpdateE B BL ed fn (v.shift / B + 1) v.root i).map
    (fun r => { v with root := r })

/-- A fault of the callback at the addressed slot propagates out of the
radix write path. -/
theorem treeUpdateE_error (ed : Option Nat) (fn : α → Except ε α)
    (err : ε) :
    ∀ (h : Nat) (t : Node α) (i : Nat) (old : α),
      treeGet B BL h t i = some old → fn old = .error err →
      treeUpdateE B BL ed fn h t i = .error err
  | 0, .leaf e vs, i, old, hget, hf => by
    rw [treeGet] at hget
    rw [treeUpdateE, hget]
    dsimp only
    rw [hf]
    rfl
  | 0, .inner e cs, i, old, hget, hf => by rw [treeGet] at hget; cases hget
  | _ + 1, .leaf e vs, i, old, hget, hf => by
    rw [treeGet] at hget
    cases hget
  | h + 1, .inner e cs, i, old, hget, hf => by
    rw [treeGet] at hget
    rw [treeUpdateE]
    cases hc : cs[i / 2 ^ (h * B + BL) % 2 ^ B]? with
    | none => rw [hc] at hget; cases hget
    | some c =>
      rw [hc] at hget
      dsimp only at hget ⊢
      rw [treeUpdateE_error ed fn err h c i old hget hf]
      rfl

/-- A fault of the callback on the old value at position `i` propagates
out of `updateErr`; no updated container is produced, and the argument —
being immutable — is left untouched. -/
theorem updateErr_error (ed : Option Nat) (v : RBTree α) (i : Nat)
    (fn : α → Except ε α) (old : α) (err : ε)
    (hget : RBTree.get? B BL v i = some old)
    (hf : fn old = .error err) :
    updateErr B BL ed v i fn = .error err := by
  rw [RBTree.get?] at hget
  rw [updateErr]
  by_cases hcase : v.size - v.tail.length ≤ i
  · rw [if_pos hcase] at hget ⊢
    rw [hget]
    dsimp only
    rw [hf]
    rfl
  · rw [if_neg hcase] at hget ⊢
    rw [treeUpdateE_error B BL ed fn err _ v.root i old hget hf]
    rfl

end Fallible

/-- Building a vector by `push_back`-ing `0, 1, …, n − 1` onto the empty
vector (spec scenario S1). -/
def buildRange (B BL n : Nat) : RBTree Nat :=
  (List.range n).foldl (fun v k => vector.push_back B BL v k) RBTree.empty

theorem buildRange_spec (B BL : Nat) (hB : 0 < B) (n : Nat) :
    RBTree.toList (buildRange B BL n) = List.range n
      ∧ RBTree.valid B BL (buildRange B BL n) = true := by
  induction n with
  | zero =>
    exact ⟨by simp [buildRange], RBTree.valid_empty B BL⟩
  | succ n ih =>
    have hunfold : buildRange B BL (n + 1)
        = vector.push_back B BL (buildRange B BL n) n := by
      rw [buildRange, buildRange, List.range_succ, List.foldl_append,
        List.foldl_cons, List.foldl_nil]
    have hstep := RBTree.pushBackAux_spec B BL hB ih.2 none (n : Nat)
    rw [hunfold]
    exact ⟨by rw [show vector.push_back B BL (buildRange B BL n) n
        = RBTree.pushBackAux B BL none (buildRange B BL n) n from rfl,
      hstep.1, ih.1, List.range_succ], hstep.2⟩

/-- C1: for every vector `v`, every index `i < v.size()` and every value
`x`, `v.set(i, x).get(i) == x`, and for every `j ≠ i` with
`j < v.size()`, `v.set(i, x).get(j) == v.get(j)`.  The original `v` is
unmodified: in this embedding values are immutable by construction —
`set` builds and returns a new value and every later read of `v` goes
through the unchanged `v` itself. -/
theorem claim_C1 (B BL : Nat) (v : RBTree Nat)
    (hv : RBTree.valid B BL v = true) (i x : Nat)
    (hi : i < vector.size v) :
    vector.get B BL (vector.set B BL v i x) i = some x
      ∧ ∀ j, j ≠ i → j < vector.size v →
        vector.get B BL (vector.set B BL v i x) j = vector.get B BL v j := by
  have hupd := RBTree.updateAux_spec B BL hv none i (fun _ => x)
  have hlenT : i < (RBTree.toList v).length := by
    rw [← RBTree.size_toList B BL hv]
    exact hi
  have hsz : (RBTree.updateAux B BL none v i (fun _ => x)).size = v.size := by
    rw [RBTree.size_toList B BL hupd.2, RBTree.size_toList B BL hv, hupd.1,
      length_listModify]
  obtain ⟨y, hy⟩ : ∃ y, (RBTree.toList v)[i]? = some y :=
    ⟨(RBTree.toList v).get ⟨i, hlenT⟩,
      by rw [List.getElem?_eq_getElem hlenT]; rfl⟩
  constructor
  · show RBTree.get? B BL (RBTree.updateAux B BL none v i (fun _ => x)) i
        = some x
    rw [RBTree.get?_spec B BL hupd.2 i (by rw [hsz]; exact hi), hupd.1,
      listModify_getElem?_self, hy]
    rfl
  · intro j hj hjlt
    show RBTree.get? B BL (RBTree.updateAux B BL none v i (fun _ => x)) j
        = RBTree.get? B BL v j
    rw [RBTree.get?_spec B BL hupd.2 j (by rw [hsz]; exact hjlt), hupd.1,
      listModify_getElem?_ne _ _ _ _ hj,
      ← RBTree.get?_spec B BL hv j hjlt]

/-- C2: for every vector `v` and value `x`,
`v.push_back(x).size() == v.size() + 1` and
`v.push_back(x).get(v.size()) == x`; in particular, starting from the
empty vector, pushing `0..99` yields size 100 with `get(i) == i` for
every `i < 100` (spec scenario S1). -/
theorem claim_C2 (B BL : Nat) (hB : 0 < B) :
    (∀ (v : RBTree Nat) (x : Nat), RBTree.valid B BL v = true →
        vector.size (vector.push_back B BL v x) = vector.size v + 1
          ∧ vector.get B BL (vector.push_back B BL v x) (vector.size v)
              = some x)
      ∧ vector.size (buildRange B BL 100) = 100
      ∧ ∀ i, i < 100 →
          vector.get B BL (buildRange B BL 100) i = some i := by
  have hbuild := buildRange_spec B BL hB 100
  refine ⟨?_, ?_, ?_⟩
  · intro v x hv
    have hp := RBTree.pushBackAux_spec B BL hB hv none x
    have hsz : (RBTree.pushBackAux B BL none v x).size = v.size + 1 := by
      rw [RBTree.size_toList B BL hp.2, RBTree.size_toList B BL hv, hp.1,
        List.length_append, List.length_singleton]
    refine ⟨hsz, ?_⟩
    show RBTree.get? B BL (RBTree.pushBackAux B BL none v x) v.size = some x
    rw [RBTree.get?_spec B BL hp.2 v.size (by omega), hp.1,
      RBTree.size_toList B BL hv, List.getElem?_concat_length]
  · show (buildRange B BL 100).size = 100
    rw [RBTree.size_toList B BL hbuild.2, hbuild.1, List.length_range]
  · intro i hilt
    show RBTree.get? B BL (buildRange B BL 100) i = some i
    have hsz : (buildRange B BL 100).size = 100 := by
      rw [RBTree.size_toList B BL hbuild.2, hbuild.1, List.length_range]
    rw [RBTree.get?_spec B BL hbuild.2 i (by omega), hbuild.1,
      List.getElem?_range hilt]

/-- C3: for every vector `v` and every `n` (no precondition, `n` is
clamped): `v.take(n).size() == min(n, v.size())` and for every
`i < min(n, v.size())`, `v.take(n).get(i) == v.get(i)`. -/
theorem claim_C3 (B BL : Nat) (hB : 0 < B) (v : RBTree Nat)
    (hv : RBTree.valid B BL v = true) (n : Nat) :
    vector.size (vector.take B BL v n) = min n (vector.size v)
      ∧ ∀ i, i < min n (vector.size v) →
        vector.get B BL (vector.take B BL v n) i = vector.get B BL v i := by
  have ht := RBTree.takeAux_spec B BL hB hv none n
  have hsz : (RBTree.takeAux B BL none v n).size = min n v.size := by
    rw [RBTree.size_toList B BL ht.2, ht.1, List.length_take,
      ← RBTree.size_toList B BL hv]
  refine ⟨hsz, ?_⟩
  intro i hilt
  have hilt2 : i < min n v.size := hilt
  show RBTree.get? B BL (RBTree.takeAux B BL none v n) i
      = RBTree.get? B BL v i
  rw [RBTree.get?_spec B BL ht.2 i (by omega), ht.1,
    List.getElem?_take_of_lt (by omega),
    ← RBTree.get?_spec B BL hv i (by omega)]

/-- C4: for every vector `v`, index `i < v.size()` and function `fn`,
`v.update(i, fn)` has `fn(v.get(i))` at position `i`, all other elements
and the size unchanged. -/
theorem claim_C4 (B BL : Nat) (v : RBTree Nat)
    (hv : RBTree.valid B BL v = true) (i : Nat) (f : Nat → Nat) (old : Nat)
    (hi : i < vector.size v)
    (hold : vector.get B BL v i = some old) :
    vector.get B BL (vector.update B BL v i f) i = some (f old)
      ∧ (∀ j, j ≠ i → j < vector.size v →
          vector.get B BL (vector.update B BL v i f) j
            = vector.get B BL v j)
      ∧ vector.size (vector.update B BL v i f) = vector.size v := by
  have hupd := RBTree.updateAux_spec B BL hv none i f
  have hsz : (RBTree.updateAux B BL none v i f).size = v.size := by
    rw [RBTree.size_toList B BL hupd.2, RBTree.size_toList B BL hv, hupd.1,
      length_listModify]
  have htv : (RBTree.toList v)[i]? = some old := by
    rw [← RBTree.get?_spec B BL hv i hi]
    exact hold
  refine ⟨?_, ?_, hsz⟩
  · show RBTree.get? B BL (RBTree.updateAux B BL none v i f) i
        = some (f old)
    rw [RBTree.get?_spec B BL hupd.2 i (by rw [hsz]; exact hi), hupd.1,
      listModify_getElem?_self, htv]
    rfl
  · intro j hj hjlt
    show RBTree.get? B BL (RBTree.updateAux B BL none v i f) j
        = RBTree.get? B BL v j
    rw [RBTree.get?_spec B BL hupd.2 j (by rw [hsz]; exact hjlt), hupd.1,
      listModify_getElem?_ne _ _ _ _ hj,
      ← RBTree.get?_spec B BL hv j hjlt]

theorem foldP_eq (B BL : Nat) :
    ∀ (ops : List (Op Nat)) (v : RBTree Nat),
      ops.foldl (applyP B BL) v = ops.foldl (applyOp B BL none) v
  | [], _ => rfl
  | op :: ops, v => by
    rw [List.foldl_cons, List.foldl_cons, applyP_eq_applyOp,
      foldP_eq B BL ops]

/-- C5: converting a vector to a transient and immediately back to a
persistent value, with zero mutations in between, yields a value
observationally equal to the original: the conversions are O(1), only
mint and drop an edit token, and republish the same trie state. -/
theorem claim_C5 (B BL : Nat) (v : RBTree Nat) (e : Nat) :
    vector.size (vector_transient.persistent (vector.transient v e))
        = vector.size v
      ∧ ∀ i, vector.get B BL
            (vector_transient.persistent (vector.transient v e)) i
          = vector.get B BL v i :=
  ⟨rfl, fun _ => rfl⟩

/-- C6: for every sequence of operations among push_back, set, update and
take, applying it through the persistent operations and applying it
through a transient's mutating operations (which stamp written nodes with
the transient's edit token) followed by a final conversion to persistent
yield observationally equal results: the edit-token discipline never
changes observable values. -/
theorem claim_C6 (B BL : Nat) (hB : 0 < B) (v : RBTree Nat)
    (hv : RBTree.valid B BL v = true) (e : Nat) (ops : List (Op Nat)) :
    vector.size (vector_transient.persistent
          (ops.foldl (applyT B BL) (vector.transient v e)))
        = vector.size (ops.foldl (applyP B BL) v)
      ∧ ∀ i, vector.get B BL (vector_transient.persistent
            (ops.foldl (applyT B BL) (vector.transient v e))) i
          = vector.get B BL (ops.foldl (applyP B BL) v) i := by
  have hT : (ops.foldl (applyT B BL) (vector.transient v e)).impl
      = ops.foldl (applyOp B BL (some e)) v := by
    rw [show vector.transient v e = (⟨v, e⟩ : vector_transient Nat)
      from rfl, foldT_impl]
  have h1 := foldOp_spec B BL hB ops v (some e) hv
  have h2 := foldOp_spec B BL hB ops v none hv
  have hP := foldP_eq B BL ops v
  rw [show vector_transient.persistent
        (ops.foldl (applyT B BL) (vector.transient v e))
      = (ops.foldl (applyT B BL) (vector.transient v e)).impl from rfl,
    hT, hP]
  exact obs_of_toList_eq B BL h1.2 h2.2 (by rw [h1.1, h2.1])

/-- C7: invoking `push_back`, `set`, `update` or `take` on an rvalue
vector with the transient-rvalue optimization enabled (the move overload
mutating through a freshly minted edit token) is observationally equal —
same size, same elements — to the persistent operation with the
optimization disabled. -/
theorem claim_C7 (B BL : Nat) (hB : 0 < B) (e : Nat) (v : RBTree Nat)
    (hv : RBTree.valid B BL v = true) (x i n : Nat) (f : Nat → Nat) :
    (vector.size (vector.push_back_move B BL true e v x)
        = vector.size (vector.push_back_move B BL false e v x)
      ∧ ∀ j, vector.get B BL (vector.push_back_move B BL true e v x) j
          = vector.get B BL (vector.push_back_move B BL false e v x) j)
    ∧ (vector.size (vector.set_move B BL true e v i x)
        = vector.size (vector.set_move B BL false e v i x)
      ∧ ∀ j, vector.get B BL (vector.set_move B BL true e v i x) j
          = vector.get B BL (vector.set_move B BL false e v i x) j)
    ∧ (vector.size (vector.update_move B BL true e v i f)
        = vector.size (vector.update_move B BL false e v i f)
      ∧ ∀ j, vector.get B BL (vector.update_move B BL true e v i f) j
          = vector.get B BL (vector.update_move B BL false e v i f) j)
    ∧ (vector.size (vector.take_move B BL true e v n)
        = vector.size (vector.take_move B BL false e v n)
      ∧ ∀ j, vector.get B BL (vector.take_move B BL true e v n) j
          = vector.get B BL (vector.take_move B BL false e v n) j) := by
  have hpushT := RBTree.pushBackAux_spec B BL hB hv (some e) x
  have hpushF := RBTree.pushBackAux_spec B BL hB hv none x
  have hsetT := RBTree.updateAux_spec B BL hv (some e) i (fun _ => x)
  have hsetF := RBTree.updateAux_spec B BL hv none i (fun _ => x)
  have hupdT := RBTree.updateAux_spec B BL hv (some e) i f
  have hupdF := RBTree.updateAux_spec B BL hv none i f
  have htakeT := RBTree.takeAux_spec B BL hB hv (some e) n
  have htakeF := RBTree.takeAux_spec B BL hB hv none n
  have hobs1 := obs_of_toList_eq B BL hpushT.2 hpushF.2
    (by rw [hpushT.1, hpushF.1])
  have hobs2 := obs_of_toList_eq B BL hsetT.2 hsetF.2
    (by rw [hsetT.1, hsetF.1])
  have hobs3 := obs_of_toList_eq B BL hupdT.2 hupdF.2
    (by rw [hupdT.1, hupdF.1])
  have hobs4 := obs_of_toList_eq B BL htakeT.2 htakeF.2
    (by rw [htakeT.1, htakeF.1])
  exact ⟨hobs1, hobs2, hobs3, hobs4⟩

/-- C8: for a vector `v`, index `i < v.size()` and a callback that raises
a fault on the old value, `update` propagates the fault: no updated
container is produced (the partially built spine is discarded inside the
write path), and the receiver `v` — an immutable value the operation
never writes to — is observably equal to its pre-call state. -/
theorem claim_C8 (B BL : Nat) (ed : Option Nat) (v : RBTree Nat) (i : Nat)
    (fn : Nat → Except Nat Nat) (old err : Nat)
    (hv : RBTree.valid B BL v = true) (hi : i < vector.size v)
    (hget : vector.get B BL v i = some old)
    (hf : fn old = Except.error err) :
    updateErr B BL ed v i fn = Except.error err :=
  updateErr_error B BL ed v i fn old err hget hf

/-- C10: `empty()` returns true exactly when `size() == 0`; the
default-constructed vector, whose implementation is the canonical
`impl_t::empty`, reports `empty() == true` and `size() == 0`. -/
theorem claim_C10 :
    (∀ (v : RBTree Nat), vector.empty v = true ↔ vector.size v = 0)
      ∧ vector.empty (RBTree.empty : RBTree Nat) = true
      ∧ vector.size (RBTree.empty : RBTree Nat) = 0 := by
  refine ⟨?_, rfl, rfl⟩
  intro v
  show (v.size == 0) = true ↔ v.size = 0
  simp

/-- A concrete five-element vector for the parameters `B = BL = 1`
(fanout 2, leaf size 2): trunk of two full leaves plus a one-element
tail.  Used as the concrete input of the witnesses. -/
def wVec : RBTree Nat :=
  ⟨5, 0, .inner none [.leaf none [0, 1], .leaf none [2, 3]], [4]⟩

/-- Witness for C1 at `B = BL = 1` on a concrete five-element vector. -/
theorem claim_C1_w :
    (RBTree.valid 1 1 wVec = true ∧ 2 < vector.size wVec)
    ∧ (vector.get 1 1 (vector.set 1 1 wVec 2 9) 2 = some 9
      ∧ ∀ j, j ≠ 2 → j < vector.size wVec →
        vector.get 1 1 (vector.set 1 1 wVec 2 9) j
          = vector.get 1 1 wVec j) :=
  ⟨⟨by decide, by decide⟩, claim_C1 1 1 wVec (by decide) 2 9 (by decide)⟩

/-- Witness for C2 at `B = BL = 1`. -/
theorem claim_C2_w :
    0 < 1
    ∧ ((∀ (v : RBTree Nat) (x : Nat), RBTree.valid 1 1 v = true →
          vector.size (vector.push_back 1 1 v x) = vector.size v + 1
            ∧ vector.get 1 1 (vector.push_back 1 1 v x) (vector.size v)
                = some x)
        ∧ vector.size (buildRange 1 1 100) = 100
        ∧ ∀ i, i < 100 →
            vector.get 1 1 (buildRange 1 1 100) i = some i) :=
  ⟨by decide, claim_C2 1 1 (by decide)⟩

/-- Witness for C3 at `B = BL = 1`, truncating a five-element vector to
three elements. -/
theorem claim_C3_w :
    (0 < 1 ∧ RBTree.valid 1 1 wVec = true)
    ∧ (vector.size (vector.take 1 1 wVec 3) = min 3 (vector.size wVec)
      ∧ ∀ i, i < min 3 (vector.size wVec) →
        vector.get 1 1 (vector.take 1 1 wVec 3) i
          = vector.get 1 1 wVec i) :=
  ⟨⟨by decide, by decide⟩, claim_C3 1 1 (by decide) wVec (by decide) 3⟩

/-- Witness for C4 at `B = BL = 1`, updating position 1 of a concrete
vector. -/
theorem claim_C4_w :
    (RBTree.valid 1 1 wVec = true ∧ 1 < vector.size wVec
      ∧ vector.get 1 1 wVec 1 = some 1)
    ∧ (vector.get 1 1 (vector.update 1 1 wVec 1 (fun k => k + 10)) 1
          = some ((fun k => k + 10) 1)
      ∧ (∀ j, j ≠ 1 → j < vector.size wVec →
          vector.get 1 1 (vector.update 1 1 wVec 1 (fun k => k + 10)) j
            = vector.get 1 1 wVec j)
      ∧ vector.size (vector.update 1 1 wVec 1 (fun k => k + 10))
          = vector.size wVec) :=
  ⟨⟨by decide, by decide, by decide⟩,
    claim_C4 1 1 wVec (by decide) 1 (fun k => k + 10) 1 (by decide)
      (by decide)⟩

/-- Witness for C6 at `B = BL = 1`: a concrete command sequence (push,
set, take) run through a transient with token 5 and through the
persistent interface. -/
theorem claim_C6_w :
    (0 < 1 ∧ RBTree.valid 1 1 wVec = true)
    ∧ (vector.size (vector_transient.persistent
          (([Op.push 9, Op.set 0 7, Op.take 3]).foldl (applyT 1 1)
            (vector.transient wVec 5)))
        = vector.size (([Op.push 9, Op.set 0 7, Op.take 3]).foldl
            (applyP 1 1) wVec)
      ∧ ∀ i, vector.get 1 1 (vector_transient.persistent
            (([Op.push 9, Op.set 0 7, Op.take 3]).foldl (applyT 1 1)
              (vector.transient wVec 5))) i
          = vector.get 1 1 (([Op.push 9, Op.set 0 7, Op.take 3]).foldl
              (applyP 1 1) wVec) i) :=
  ⟨⟨by decide, by decide⟩,
    claim_C6 1 1 (by decide) wVec (by decide) 5
      [Op.push 9, Op.set 0 7, Op.take 3]⟩

/-- Witness for C7 at `B = BL = 1` on a concrete vector, with a concrete
token, value, index, count and function. -/
theorem claim_C7_w :
    (0 < 1 ∧ RBTree.valid 1 1 wVec = true)
    ∧ ((vector.size (vector.push_back_move 1 1 true 3 wVec 9)
          = vector.size (vector.push_back_move 1 1 false 3 wVec 9)
        ∧ ∀ j, vector.get 1 1 (vector.push_back_move 1 1 true 3 wVec 9) j
            = vector.get 1 1 (vector.push_back_move 1 1 false 3 wVec 9) j)
      ∧ (vector.size (vector.set_move 1 1 true 3 wVec 0 9)
          = vector.size (vector.set_move 1 1 false 3 wVec 0 9)
        ∧ ∀ j, vector.get 1 1 (vector.set_move 1 1 true 3 wVec 0 9) j
            = vector.get 1 1 (vector.set_move 1 1 false 3 wVec 0 9) j)
      ∧ (vector.size (vector.update_move 1 1 true 3 wVec 0 (fun k => k + 1))
          = vector.size (vector.update_move 1 1 false 3 wVec 0
              (fun k => k + 1))
        ∧ ∀ j, vector.get 1 1 (vector.update_move 1 1 true 3 wVec 0
              (fun k => k + 1)) j
            = vector.get 1 1 (vector.update_move 1 1 false 3 wVec 0
                (fun k => k + 1)) j)
      ∧ (vector.size (vector.take_move 1 1 true 3 wVec 2)
          = vector.size (vector.take_move 1 1 false 3 wVec 2)
        ∧ ∀ j, vector.get 1 1 (vector.take_move 1 1 true 3 wVec 2) j
            = vector.get 1 1 (vector.take_move 1 1 false 3 wVec 2) j)) :=
  ⟨⟨by decide, by decide⟩,
    claim_C7 1 1 (by decide) 3 wVec (by decide) 9 0 2 (fun k => k + 1)⟩

/-- Witness for C8 at `B = BL = 1`: a callback that always faults on a
concrete vector and index. -/
theorem claim_C8_w :
    (RBTree.valid 1 1 wVec = true ∧ 1 < vector.size wVec
      ∧ vector.get 1 1 wVec 1 = some 1
      ∧ (fun _ : Nat => (Except.error 7 : Except Nat Nat)) 1
          = Except.error 7)
    ∧ updateErr 1 1 none wVec 1 (fun _ => Except.error 7)
        = Except.error 7 :=
  ⟨⟨by decide, by decide, by decide, rfl⟩,
    claim_C8 1 1 none wVec 1 (fun _ => Except.error 7) 1 7 (by decide)
      (by decide) (by decide) rfl⟩

end Immer
